import Mathlib

/-!
# go-generics-cache, package `simple`

A shallow embedding of `simple/simple.go`: the `Cache` type with `NewCache`, `Set`, `Get`,
`Keys`, `Delete` and `Contains`, followed by theorems about them.

Modelling decisions.

* The clock is explicit. Every operation that reads the clock (`Set`, through `NewItem`, and
  `Get`/`Contains`, through `HasExpired`) takes the clock reading `now` as an argument.
* `c.items` is a Go map. It is embedded as the list of its entries, with the three
  operations Go has on a map: indexing `m[k]`, assignment `m[k] = v` and `delete(m, k)`.
  They compare keys with Go's `==`, which is not reflexive on every key type: a
  floating-point NaN is not `==` to itself, so an assignment under it adds an entry that no
  indexing finds and no `delete` removes, while `range` still yields it.
* No operation of the embedding looks at the order of the list of entries: the order in
  which the `range` loop of `Keys` visits the entries is an argument of `Keys`.
* A stored `*cache.Item` is only ever the pointer returned by `NewItem`, and items are
  never mutated, so the map stores the item itself. Indexing yields `none` where Go yields
  the nil pointer, and an operation that reads an item through it panics.
* `cache.Item`, `cache.NewItem`, `cache.ItemOption` and `Item.HasExpired` belong to the
  parent package; they are modelled from the specification.
* `sort.Slice` belongs to the Go standard library. `Keys` takes the sorting procedure as an
  argument, and the theorems assume only its contract (`SortSliceContract`) and, where a
  panic of the comparator matters, what the procedure does then (`SortSlicePanics`);
  `insertionSort` is one procedure that meets both (`sort.Slice` itself runs an insertion
  sort on a slice of fewer than twelve elements).
* The reader/writer lock is not modelled: the embedding gives the sequential behaviour of
  each operation, that is, its behaviour while it holds the lock.
-/

namespace Simple

variable {K V T : Type}

/-! ## Time and items -/

/-- An instant of the clock (Go's `time.Time`), counted in clock ticks. -/
abbrev Time := Int

/-- Go's `t.Before(u)`: the instant `t` is strictly earlier than `u`. -/
def Before (t u : Time) : Bool := decide (t < u)

/-- Modelled from the spec: the entity `cache.Item` of the parent package `cache`, whose
source is not part of `simple.go`. Its attributes are the key, the value, the creation
timestamp and the optional expiration timestamp (absent = never expires). -/
structure Item (K V : Type) where
  Key : K
  Value : V
  CreatedAt : Time
  Expiration : Option Time
deriving DecidableEq, Repr

/-- Modelled from the spec: `cache.ItemOption` of the parent package `cache`, whose source is
not part of `simple.go`. An expiration option is a configuration directive, applied at
insertion time, that sets the expiration timestamp of the item; the documented forms are a
duration, counted from the insertion time, and a deadline. -/
inductive ItemOption where
  | expiresAfter (d : Int)
  | expiresAt (deadline : Time)
deriving DecidableEq, Repr

/-- Modelled from the spec: the effect of one expiration option of the parent package `cache`
on the expiration timestamp under construction, when the item is built at clock reading
`now`. A later option replaces what an earlier one has set. -/
def applyOption (now : Time) (_exp : Option Time) : ItemOption → Option Time
  | .expiresAfter d => some (now + d)
  | .expiresAt deadline => some deadline

/-- Modelled from the spec: `cache.NewItem(key, value, options...)` of the parent package
`cache`, whose source is not part of `simple.go`. It produces a record holding the key, the
value, the creation time (the clock reading `now`) and the expiration time set by the
options, absent by default. -/
def NewItem (now : Time) (k : K) (v : V) (opts : List ItemOption) : Item K V :=
  { Key := k, Value := v, CreatedAt := now, Expiration := opts.foldl (applyOption now) none }

/-- Modelled from the spec: `Item.HasExpired()` of the parent package `cache`, whose source is
not part of `simple.go`. An item without expiration timestamp never expires; otherwise it
has expired once its expiration time has passed at the clock reading `now`. -/
def Item.HasExpired (item : Item K V) (now : Time) : Bool :=
  match item.Expiration with
  | none => false
  | some e => Before e now

/-! ## Keys and Go maps -/

/-- Go's constraint `comparable` on the key type `K`: the operator `==` is defined on the
keys. `eqSelf k` is the result of `k == k`; it is true for booleans, integers, strings and
pointers, and false for a floating-point NaN (and for a struct, an array or an interface
value that holds one). -/
class Comparable (K : Type) where
  eqSelf : K → Bool

/-- Go's `a == b` on keys: `a` and `b` are the same value, and that value is `==` to itself.
(Values that are `==` without being the same, such as the two zeros of a floating-point
type, are taken as one value.) -/
def keyEq [DecidableEq K] [Comparable K] (a b : K) : Bool :=
  decide (a = b) && Comparable.eqSelf a

instance instComparableString : Comparable String := ⟨fun _ => true⟩

instance instComparableInt : Comparable Int := ⟨fun _ => true⟩

instance instComparableNat : Comparable Nat := ⟨fun _ => true⟩

/-- A part of Go's `float64`, as a key type with a value that is not `==` to itself: NaN,
and the finite values that are a multiple of one half, `halves n` being `n / 2`. -/
inductive Float64 where
  | NaN
  | halves (n : Int)
deriving DecidableEq, Repr

instance instComparableFloat64 : Comparable Float64 :=
  ⟨fun k => match k with
    | .NaN => false
    | .halves _ => true⟩

section GoMap

variable [DecidableEq K] [Comparable K]

/-- Go's `v, ok := m[k]` on a map given by its entries: the value of the entry whose key is
`==` to `k`, or `none` (for `ok` false, where `v` is the zero value, the nil pointer) when
there is no such entry. -/
def mapIndex : List (K × T) → K → Option T
  | [], _ => none
  | (k', v) :: m, k => if keyEq k' k then some v else mapIndex m k

/-- Go's `m[k] = v`: the entry whose key is `==` to `k` gets the value `v`; when there is no
such entry, the entry of `k` and `v` is added. -/
def mapAssign : List (K × T) → K → T → List (K × T)
  | [], k, v => [(k, v)]
  | (k', v') :: m, k, v =>
    if keyEq k' k then (k', v) :: m else (k', v') :: mapAssign m k v

/-- Go's `delete(m, k)`: the entry whose key is `==` to `k` is removed; when there is no
such entry, nothing is done. -/
def mapDelete (m : List (K × T)) (k : K) : List (K × T) :=
  m.filter (fun e => !keyEq e.1 k)

end GoMap

/-! ## The cache -/

/-- The type `Cache[K, V]`: the map `items` from keys to items, as the list of its
entries. -/
structure Cache (K V : Type) where
  items : List (K × Item K V)

/-- `NewCache`: a cache whose map is empty. -/
def NewCache : Cache K V := { items := [] }

section Operations

variable [DecidableEq K] [Comparable K]

/-- `Cache.Set`: `c.items[k] = cache.NewItem(k, v, opts...)`, at clock reading `now`. -/
def Set (c : Cache K V) (now : Time) (k : K) (v : V) (opts : List ItemOption) : Cache K V :=
  { items := mapAssign c.items k (NewItem now k v opts) }

/-- `Cache.Get` at clock reading `now`; `default` is the zero value of `V`. -/
def Get [Inhabited V] (c : Cache K V) (now : Time) (k : K) : V × Bool :=
  match mapIndex c.items k with
  | none => (default, false)
  | some got => if got.HasExpired now then (default, false) else (got.Value, true)

/-- The comparator that `Keys` hands to `sort.Slice`, on the elements of the slice:
`c.items[a].CreatedAt.Before(c.items[b].CreatedAt)`. An indexing that finds no entry yields
a nil pointer, and reading `CreatedAt` through it panics: the result is then `none`. -/
def keysLess (c : Cache K V) (a b : K) : Option Bool :=
  match mapIndex c.items a, mapIndex c.items b with
  | some i1, some i2 => some (Before i1.CreatedAt i2.CreatedAt)
  | _, _ => none

/-- A sorting procedure in the role of `sort.Slice`: it receives the comparator and the
slice, and returns the sorted slice, or `none` when the comparator panics. -/
abbrev SliceSorter (K : Type) := (K → K → Option Bool) → List K → Option (List K)

/-- The slice `ret` that the loop `for key := range c.items` of `Keys` builds, when the
iteration visits the entries of the map in the order `visit` of their positions: the keys of
the visited entries, in that order. -/
def rangeKeys (c : Cache K V) (visit : List Nat) : List K :=
  visit.filterMap (fun i => (c.items[i]?).map Prod.fst)

/-- `Cache.Keys`: the keys collected by the `range` loop, which visits the entries in the
order `visit`, sorted by `sort.Slice` with the comparator `keysLess`; `none` when the call
panics. -/
def Keys (sortSlice : SliceSorter K) (c : Cache K V) (visit : List Nat) : Option (List K) :=
  sortSlice (keysLess c) (rangeKeys c visit)

/-- `Cache.Delete`: `delete(c.items, key)`. -/
def Delete (c : Cache K V) (key : K) : Cache K V :=
  { items := mapDelete c.items key }

/-- `Cache.Contains` at clock reading `now`. -/
def Contains (c : Cache K V) (now : Time) (key : K) : Bool :=
  match mapIndex c.items key with
  | none => false
  | some item => !item.HasExpired now

/-- What Go guarantees of `for key := range c.items`: the iteration visits every entry of
the map exactly once, in an order that is not specified. -/
def RangeOrder (c : Cache K V) (visit : List Nat) : Prop :=
  visit.Perm (List.range c.items.length)

/-- The keys of the entries of the map. -/
def storedKeys (c : Cache K V) : List K :=
  c.items.map Prod.fst

/-- The contract of `sort.Slice`, for comparators `less` that order the elements of the slice
by a rank (every strict weak ordering of finitely many elements is of this form): the call
returns, and the result is a rearrangement of the slice in which no element is `less` than
an element before it. Nothing is promised on the order of elements of equal rank: the sort
need not be stable. -/
def SortSliceContract (sortSlice : SliceSorter K) : Prop :=
  ∀ (less : K → K → Option Bool) (rank : K → Time) (xs : List K),
    (∀ a ∈ xs, ∀ b ∈ xs, less a b = some (Before (rank a) (rank b))) →
    ∃ ys, sortSlice less xs = some ys ∧ ys.Perm xs ∧
      ys.Pairwise (fun a b => rank a ≤ rank b)

/-- What `sort.Slice` does with a comparator that panics. A slice of fewer than two elements
is returned as it is, without any call of the comparator. In a slice of two elements or more
every element is compared at least once, so the call panics when the slice holds an element
on which every call of the comparator panics. -/
def SortSlicePanics (sortSlice : SliceSorter K) : Prop :=
  (∀ (less : K → K → Option Bool) (xs : List K),
    xs.length < 2 → sortSlice less xs = some xs) ∧
  ∀ (less : K → K → Option Bool) (xs : List K) (x : K), 2 ≤ xs.length → x ∈ xs →
    (∀ y, less x y = none ∧ less y x = none) → sortSlice less xs = none

/-- Insertion of `x` into a sorted slice, before the first element it is `less` than. -/
def insertSorted (less : K → K → Option Bool) (x : K) : List K → Option (List K)
  | [] => some [x]
  | y :: ys =>
    match less x y with
    | none => none
    | some true => some (x :: y :: ys)
    | some false =>
      match insertSorted less x ys with
      | none => none
      | some r => some (y :: r)

/-- Insertion sort, one sorting procedure that meets the contract of `sort.Slice`. -/
def insertionSort : SliceSorter K
  | _, [] => some []
  | less, x :: xs =>
    match insertionSort less xs with
    | none => none
    | some r => insertSorted less x r

/-- Insertion sort of the reversed slice: a second sorting procedure that meets the contract
of `sort.Slice`, and that leaves elements of equal rank in another order than
`insertionSort` does. -/
def insertionSortReversed : SliceSorter K :=
  fun less xs => insertionSort less xs.reverse

/-- The creation timestamp of the item stored under `k` (0 when there is none). -/
def createdAtOf (c : Cache K V) (k : K) : Time :=
  match mapIndex c.items k with
  | none => 0
  | some item => item.CreatedAt

/-- The stored creation timestamps are pairwise distinct. -/
def DistinctCreatedAt (c : Cache K V) : Prop :=
  c.items.Pairwise (fun e₁ e₂ => e₁.2.CreatedAt ≠ e₂.2.CreatedAt)

/-- The list of entries is a Go map: no two entries have keys that are `==`. -/
def WellFormed (c : Cache K V) : Prop :=
  c.items.Pairwise (fun e₁ e₂ => keyEq e₁.1 e₂.1 = false)

/-- Every key stored in the map is `==` to itself. -/
def KeysEqualThemselves (c : Cache K V) : Prop :=
  ∀ e ∈ c.items, Comparable.eqSelf e.1 = true

/-- A call of one of the five operations of the cache. -/
inductive Op (K V : Type) where
  | set (now : Time) (k : K) (v : V) (opts : List ItemOption)
  | get (now : Time) (k : K)
  | keys
  | delete (k : K)
  | contains (now : Time) (k : K)

/-- The state of the cache after the call `op`. -/
def Op.apply (c : Cache K V) : Op K V → Cache K V
  | .set now k v opts => Set c now k v opts
  | .get _ _ => c
  | .keys => c
  | .delete k => Delete c k
  | .contains _ _ => c

/-- The call is a `Set` or a `Delete` on the key `k`. -/
def Op.WritesTo (k : K) : Op K V → Prop
  | .set _ k' _ _ => k' = k
  | .delete k' => k' = k
  | _ => False

/-- The call is a `Set` on the key `k`. -/
def Op.SetsKey (k : K) : Op K V → Prop
  | .set _ k' _ _ => k' = k
  | _ => False

/-- The call is one of the read operations `Get`, `Keys` and `Contains`. -/
def Op.IsRead : Op K V → Prop
  | .get _ _ => True
  | .keys => True
  | .contains _ _ => True
  | _ => False

/-- The state of the cache after the calls `ops`, in that order. -/
def runOps (c : Cache K V) (ops : List (Op K V)) : Cache K V :=
  ops.foldl Op.apply c

/-- The state `c` is reachable from `NewCache` by calls of the operations. -/
def Reachable (c : Cache K V) : Prop :=
  ∃ ops : List (Op K V), runOps NewCache ops = c

/-- The arguments of one call of `Set`, with the clock reading at which it is made. -/
structure SetCall (K V : Type) where
  now : Time
  k : K
  v : V
  opts : List ItemOption

/-- The state of the cache after the calls of `Set` in `calls`, in that order. -/
def setAll (c : Cache K V) (calls : List (SetCall K V)) : Cache K V :=
  calls.foldl (fun c s => Set c s.now s.k s.v s.opts) c

/-- The two states hold the same mapping: the same entries, listed in some order. -/
def SameMapping (c₁ c₂ : Cache K V) : Prop :=
  c₁.items.Perm c₂.items

end Operations

/-! ## Example states -/

/-- An example state: `Set("a", 1)` at clock reading 1, then `Set("b", 2)` at clock
reading 2, on a new cache. -/
def exampleAB : Cache String Int :=
  Set (Set NewCache 1 "a" 1 []) 2 "b" 2 []

/-- An example state: as `exampleAB`, followed at clock reading 3 by `Set("x", 9)` with an
expiration after 4 ticks, so that the item under "x" expires once the clock has passed 7. -/
def exampleExpiring : Cache String Int :=
  Set exampleAB 3 "x" 9 [ItemOption.expiresAfter 4]

/-- An example state that holds the same mapping as `exampleExpiring`, built by the same
three calls of `Set` in the opposite order. -/
def exampleExpiringReordered : Cache String Int :=
  Set (Set (Set NewCache 3 "x" 9 [ItemOption.expiresAfter 4]) 2 "b" 2 []) 1 "a" 1 []

/-- An example state with a key that is not `==` to itself: on a new
`Cache[float64, int]`, `Set(1.5, 1)` at clock reading 1, then `Set(NaN, 2)` at clock
reading 2. -/
def exampleNaN : Cache Float64 Int :=
  Set (Set NewCache 1 (Float64.halves 3) 1 []) 2 Float64.NaN 2 []

/-- An example state with a key that is not `==` to itself and an item that expires: on a
new `Cache[float64, int]`, `Set(NaN, 1)` at clock reading 1, then `Set(2.0, 5)` at clock
reading 2 with an expiration after 1 tick. -/
def exampleNaNExpiring : Cache Float64 Int :=
  Set (Set NewCache 1 Float64.NaN 1 []) 2 (Float64.halves 4) 5 [ItemOption.expiresAfter 1]

/-- An example state with a key that is not `==` to itself and two others: on a new
`Cache[float64, int]`, `Set(NaN, 1)`, `Set(1.5, 2)` and `Set(2.5, 3)` at the clock readings
1, 2 and 3. -/
def exampleNaNFirst : Cache Float64 Int :=
  Set (Set (Set NewCache 1 Float64.NaN 1 []) 2 (Float64.halves 3) 2 []) 3 (Float64.halves 5) 3 []

/-- An example state with one key: on a new `Cache[float64, int]`, `Set(1.5, 1)` at clock
reading 1. -/
def exampleOneKey : Cache Float64 Int :=
  Set NewCache 1 (Float64.halves 3) 1 []

/-! ## The sorting procedure -/

theorem insertSorted_spec (less : K → K → Option Bool) (rank : K → Time) (x : K) :
    ∀ ys : List K, (∀ b ∈ ys, less x b = some (Before (rank x) (rank b))) →
      ys.Pairwise (fun a b => rank a ≤ rank b) →
      ∃ r, insertSorted less x ys = some r ∧ r.Perm (x :: ys) ∧
        r.Pairwise (fun a b => rank a ≤ rank b) := by
  intro ys
  induction ys with
  | nil => intro _ _; exact ⟨[x], rfl, List.Perm.refl _, List.pairwise_singleton _ _⟩
  | cons y ys ih =>
    intro hless hsorted
    have hy := hless y (List.mem_cons_self _ _)
    rw [List.pairwise_cons] at hsorted
    by_cases hxy : rank x < rank y
    · refine ⟨x :: y :: ys, ?_, List.Perm.refl _, ?_⟩
      · simp [insertSorted, hy, Before, hxy]
      · refine List.pairwise_cons.mpr ⟨?_, List.pairwise_cons.mpr hsorted⟩
        intro b hb
        rcases List.mem_cons.mp hb with rfl | hb
        · exact le_of_lt hxy
        · exact le_trans (le_of_lt hxy) (hsorted.1 b hb)
    · obtain ⟨r, hr, hperm, hpair⟩ :=
        ih (fun b hb => hless b (List.mem_cons_of_mem _ hb)) hsorted.2
      refine ⟨y :: r, ?_, ?_, ?_⟩
      · simp [insertSorted, hy, Before, hxy, hr]
      · exact (List.Perm.cons y hperm).trans (List.Perm.swap x y ys)
      · refine List.pairwise_cons.mpr ⟨?_, hpair⟩
        intro b hb
        rcases List.mem_cons.mp (hperm.subset hb) with rfl | hb
        · exact not_lt.mp hxy
        · exact hsorted.1 b hb

/-- Insertion sort meets the contract of `sort.Slice`. -/
theorem insertionSort_contract : SortSliceContract (insertionSort : SliceSorter K) := by
  intro less rank xs
  induction xs with
  | nil => intro _; exact ⟨[], rfl, List.Perm.refl _, List.Pairwise.nil⟩
  | cons x xs ih =>
    intro hless
    obtain ⟨r, hr, hperm, hpair⟩ := ih (fun a ha b hb =>
      hless a (List.mem_cons_of_mem _ ha) b (List.mem_cons_of_mem _ hb))
    obtain ⟨r', hr', hperm', hpair'⟩ := insertSorted_spec less rank x r
      (fun b hb => hless x (List.mem_cons_self _ _) b
        (List.mem_cons_of_mem _ (hperm.subset hb))) hpair
    refine ⟨r', ?_, hperm'.trans (List.Perm.cons x hperm), hpair'⟩
    simp [insertionSort, hr, hr']

/-- Insertion sort of the reversed slice meets the contract of `sort.Slice`. -/
theorem insertionSortReversed_contract :
    SortSliceContract (insertionSortReversed : SliceSorter K) := by
  intro less rank xs hless
  obtain ⟨ys, h1, h2, h3⟩ := insertionSort_contract less rank xs.reverse
    (fun a ha b hb => hless a (List.mem_reverse.mp ha) b (List.mem_reverse.mp hb))
  exact ⟨ys, h1, h2.trans (List.reverse_perm xs), h3⟩

theorem insertSorted_length (less : K → K → Option Bool) (x : K) :
    ∀ (ys r : List K), insertSorted less x ys = some r → r.length = ys.length + 1 := by
  intro ys
  induction ys with
  | nil => intro r h; simp [insertSorted] at h; rw [← h]; rfl
  | cons y ys ih =>
    intro r h
    unfold insertSorted at h
    cases hxy : less x y with
    | none => rw [hxy] at h; cases h
    | some b =>
      rw [hxy] at h
      cases b with
      | true => simp at h; rw [← h]; rfl
      | false =>
        cases hrec : insertSorted less x ys with
        | none => rw [hrec] at h; cases h
        | some r' =>
          rw [hrec] at h
          simp at h
          rw [← h, List.length_cons, ih r' hrec]; rfl

theorem insertionSort_length (less : K → K → Option Bool) :
    ∀ (xs r : List K), insertionSort less xs = some r → r.length = xs.length := by
  intro xs
  induction xs with
  | nil => intro r h; simp [insertionSort] at h; rw [← h]
  | cons x xs ih =>
    intro r h
    unfold insertionSort at h
    cases hrec : insertionSort less xs with
    | none => rw [hrec] at h; cases h
    | some r' =>
      rw [hrec] at h
      simp only at h
      rw [insertSorted_length less x r' r h, ih r' hrec, List.length_cons]

theorem insertSorted_panics (less : K → K → Option Bool) (x y : K) (ys : List K)
    (h : less x y = none) : insertSorted less x (y :: ys) = none := by
  simp [insertSorted, h]

/-- Insertion sort of two elements or more panics when the slice holds an element on which
every call of the comparator panics. -/
theorem insertionSort_panics_of_mem (less : K → K → Option Bool) (x : K)
    (hx : ∀ y, less x y = none ∧ less y x = none) :
    ∀ xs : List K, 2 ≤ xs.length → x ∈ xs → insertionSort less xs = none := by
  intro xs
  induction xs with
  | nil => intro h; simp at h
  | cons a rest ih =>
    intro hlen hmem
    unfold insertionSort
    cases hrec : insertionSort less rest with
    | none => rfl
    | some r =>
      have hrlen : r.length = rest.length := insertionSort_length less rest r hrec
      have hrest : 1 ≤ rest.length := by simp at hlen; omega
      cases r with
      | nil => simp at hrlen; omega
      | cons y r' =>
        simp only
        rcases List.mem_cons.mp hmem with rfl | hin
        · exact insertSorted_panics less x y r' (hx y).1
        · by_cases h2 : 2 ≤ rest.length
          · rw [ih h2 hin] at hrec; cases hrec
          · have h1 : rest.length = 1 := by omega
            match rest, h1, hin, hrec with
            | [b], _, hin, hrec =>
              have hb : x = b := by simpa using hin
              subst hb
              simp [insertionSort, insertSorted] at hrec
              obtain ⟨rfl, rfl⟩ := hrec
              exact insertSorted_panics less a x [] (hx a).2

/-- Insertion sort behaves as `sort.Slice` does when the comparator panics. -/
theorem insertionSort_panics : SortSlicePanics (insertionSort : SliceSorter K) := by
  refine ⟨?_, fun less xs x hlen hx hbad => insertionSort_panics_of_mem less x hbad xs hlen hx⟩
  intro less xs hlen
  match xs, hlen with
  | [], _ => rfl
  | [a], _ => rfl
  | _ :: _ :: _, h => exact absurd h (by simp)

/-- Insertion sort of the reversed slice behaves as `sort.Slice` does when the comparator
panics. -/
theorem insertionSortReversed_panics :
    SortSlicePanics (insertionSortReversed : SliceSorter K) := by
  refine ⟨?_, ?_⟩
  · intro less xs hlen
    match xs, hlen with
    | [], _ => rfl
    | [a], _ => rfl
    | _ :: _ :: _, h => exact absurd h (by simp)
  · intro less xs x hlen hx hbad
    exact insertionSort_panics_of_mem less x hbad xs.reverse (by simpa using hlen)
      (List.mem_reverse.mpr hx)

/-- A duplicate-free list sorted by a rank that is injective on it is the only sorted
rearrangement of itself. -/
theorem sorted_perm_unique (rank : K → Time) {l₁ l₂ : List K} (hperm : l₁.Perm l₂)
    (hnd : l₁.Nodup) (hinj : ∀ a ∈ l₁, ∀ b ∈ l₁, rank a = rank b → a = b)
    (h₁ : l₁.Pairwise (fun a b => rank a ≤ rank b))
    (h₂ : l₂.Pairwise (fun a b => rank a ≤ rank b)) : l₁ = l₂ := by
  have strict : ∀ l : List K, l.Perm l₁ → l.Pairwise (fun a b => rank a ≤ rank b) →
      l.Pairwise (fun a b => rank a < rank b) := by
    intro l hl hs
    have hnd' : l.Nodup := hl.nodup_iff.mpr hnd
    refine (hs.and hnd').imp_of_mem ?_
    intro a b ha hb hab
    exact lt_of_le_of_ne hab.1 (fun e => hab.2 (hinj a (hl.subset ha) b (hl.subset hb) e))
  haveI : IsAntisymm K (fun a b => rank a < rank b) :=
    ⟨fun a b hab hba => absurd hab (not_lt.mpr (le_of_lt hba))⟩
  exact List.eq_of_perm_of_sorted hperm (strict l₁ (List.Perm.refl _) h₁)
    (strict l₂ hperm.symm h₂)

theorem range_filterMap_getElem (f : T → K) (l : List T) :
    (List.range l.length).filterMap (fun i => (l[i]?).map f) = l.map f := by
  induction l with
  | nil => rfl
  | cons x l ih =>
    rw [List.length_cons, List.range_succ_eq_map, List.filterMap_cons]
    simp only [List.getElem?_cons_zero, Option.map_some', List.filterMap_map, List.map_cons]
    congr 1
    rw [← ih]
    congr 1
    funext i
    simp

/-- The `range` loop collects every key of the map exactly once. -/
theorem rangeKeys_perm (c : Cache K V) {visit : List Nat} (hr : RangeOrder c visit) :
    (rangeKeys c visit).Perm (storedKeys c) := by
  have h := hr.filterMap (fun i => (c.items[i]?).map Prod.fst)
  rw [range_filterMap_getElem] at h
  exact h

/-! ## Go maps -/

section GoMapLemmas

variable [DecidableEq K] [Comparable K]

theorem keyEq_iff {a b : K} : keyEq a b = true ↔ a = b ∧ Comparable.eqSelf a = true := by
  simp [keyEq]

theorem keyEq_self (k : K) : keyEq k k = Comparable.eqSelf k := by
  simp [keyEq]

theorem keyEq_comm (a b : K) : keyEq a b = keyEq b a := by
  by_cases h : a = b
  · subst h; rfl
  · have h' : ¬ b = a := fun e => h e.symm
    simp [keyEq, h, h']

theorem keyEq_false_of_ne {a b : K} (h : a ≠ b) : keyEq a b = false := by
  simp [keyEq, h]

theorem keyEq_false_of_eqSelf {a b : K} (h : Comparable.eqSelf b = false) :
    keyEq a b = false := by
  rw [keyEq_comm]
  simp [keyEq, h]

theorem mapIndex_eq_none {m : List (K × T)} {k : K} :
    mapIndex m k = none ↔ ∀ e ∈ m, keyEq e.1 k = false := by
  induction m with
  | nil => simp [mapIndex]
  | cons e m ih =>
    obtain ⟨k', v⟩ := e
    cases h : keyEq k' k with
    | true => simp [mapIndex, h]
    | false => simp [mapIndex, h, ih]

theorem mem_of_mapIndex {m : List (K × T)} {k : K} {v : T} (h : mapIndex m k = some v) :
    (k, v) ∈ m ∧ Comparable.eqSelf k = true := by
  induction m with
  | nil => simp [mapIndex] at h
  | cons e m ih =>
    obtain ⟨k', v'⟩ := e
    cases hk : keyEq k' k with
    | true =>
      simp only [mapIndex, hk, if_true, Option.some.injEq] at h
      obtain ⟨rfl, hself⟩ := keyEq_iff.mp hk
      subst h
      exact ⟨List.mem_cons_self _ _, hself⟩
    | false =>
      simp only [mapIndex, hk] at h
      have := ih h
      exact ⟨List.mem_cons_of_mem _ this.1, this.2⟩

theorem mapIndex_isSome_of_mem {m : List (K × T)} {k : K} (hk : k ∈ m.map Prod.fst)
    (hself : Comparable.eqSelf k = true) : ∃ v, mapIndex m k = some v := by
  cases h : mapIndex m k with
  | some v => exact ⟨v, rfl⟩
  | none =>
    exfalso
    obtain ⟨e, he, rfl⟩ := List.mem_map.mp hk
    have := mapIndex_eq_none.mp h e he
    rw [keyEq_self, hself] at this
    cases this

theorem mapIndex_of_eqSelf_false (m : List (K × T)) {k : K}
    (hself : Comparable.eqSelf k = false) : mapIndex m k = none :=
  mapIndex_eq_none.mpr (fun _ _ => keyEq_false_of_eqSelf hself)

theorem mapIndex_mapAssign_self (m : List (K × T)) {k : K} (v : T)
    (hself : Comparable.eqSelf k = true) : mapIndex (mapAssign m k v) k = some v := by
  induction m with
  | nil => simp [mapAssign, mapIndex, keyEq_self, hself]
  | cons e m ih =>
    obtain ⟨k', v'⟩ := e
    cases hk : keyEq k' k with
    | true => simp [mapAssign, mapIndex, hk]
    | false => simp [mapAssign, mapIndex, hk, ih]

theorem mapIndex_mapAssign_ne (m : List (K × T)) {k k' : K} (v : T)
    (hne : keyEq k' k = false) : mapIndex (mapAssign m k v) k' = mapIndex m k' := by
  have hkk : keyEq k k' = false := by rw [keyEq_comm]; exact hne
  induction m with
  | nil => simp [mapAssign, mapIndex, hkk]
  | cons e m ih =>
    obtain ⟨k₀, v₀⟩ := e
    cases hk : keyEq k₀ k with
    | true =>
      have h0 : keyEq k₀ k' = false := by
        obtain ⟨rfl, _⟩ := keyEq_iff.mp hk
        exact hkk
      simp [mapAssign, mapIndex, hk, h0]
    | false => simp [mapAssign, mapIndex, hk, ih]

theorem mapIndex_mapDelete_self (m : List (K × T)) (k : K) :
    mapIndex (mapDelete m k) k = none := by
  refine mapIndex_eq_none.mpr ?_
  intro e he
  have := (List.mem_filter.mp he).2
  simpa using this

theorem mapIndex_mapDelete_ne (m : List (K × T)) {k k' : K} (hne : keyEq k' k = false) :
    mapIndex (mapDelete m k) k' = mapIndex m k' := by
  induction m with
  | nil => rfl
  | cons e m ih =>
    obtain ⟨k₀, v₀⟩ := e
    cases hk : keyEq k₀ k with
    | true =>
      have h0 : keyEq k₀ k' = false := by
        obtain ⟨rfl, _⟩ := keyEq_iff.mp hk
        rw [keyEq_comm]; exact hne
      have hrec : mapIndex (mapDelete m k) k' = mapIndex m k' := ih
      simp only [mapDelete] at hrec ⊢
      simp [List.filter_cons, mapIndex, hk, h0, hrec]
    | false =>
      have hrec : mapIndex (mapDelete m k) k' = mapIndex m k' := ih
      simp only [mapDelete] at hrec ⊢
      simp [List.filter_cons, mapIndex, hk, hrec]

theorem mapDelete_of_mapIndex_none {m : List (K × T)} {k : K} (h : mapIndex m k = none) :
    mapDelete m k = m := by
  refine List.filter_eq_self.mpr ?_
  intro e he
  simp [mapIndex_eq_none.mp h e he]

theorem keys_mapAssign (m : List (K × T)) (k : K) (v : T) :
    (mapAssign m k v).map Prod.fst =
      if (mapIndex m k).isSome then m.map Prod.fst else m.map Prod.fst ++ [k] := by
  induction m with
  | nil => simp [mapAssign, mapIndex]
  | cons e m ih =>
    obtain ⟨k', v'⟩ := e
    cases hk : keyEq k' k with
    | true => simp [mapAssign, mapIndex, hk]
    | false =>
      have h1 : mapAssign ((k', v') :: m) k v = (k', v') :: mapAssign m k v := by
        simp [mapAssign, hk]
      have h2 : mapIndex ((k', v') :: m) k = mapIndex m k := by
        simp [mapIndex, hk]
      rw [h1, h2, List.map_cons, ih]
      cases (mapIndex m k).isSome <;> simp

theorem mem_keys_mapAssign (m : List (K × T)) (k : K) (v : T) (a : K) :
    a ∈ (mapAssign m k v).map Prod.fst ↔ a ∈ m.map Prod.fst ∨ a = k := by
  rw [keys_mapAssign]
  cases h : mapIndex m k with
  | none => simp
  | some w =>
    have hk : k ∈ m.map Prod.fst := List.mem_map.mpr ⟨(k, w), (mem_of_mapIndex h).1, rfl⟩
    simp only [Option.isSome_some, if_true]
    constructor
    · exact Or.inl
    · rintro (h | rfl)
      · exact h
      · exact hk

theorem keys_mapDelete (m : List (K × T)) (k : K) :
    (mapDelete m k).map Prod.fst = (m.map Prod.fst).filter (fun a => !keyEq a k) := by
  simp [mapDelete, List.filter_map, Function.comp_def]

theorem length_mapAssign (m : List (K × T)) (k : K) (v : T) :
    (mapAssign m k v).length = if (mapIndex m k).isSome then m.length else m.length + 1 := by
  have := congrArg List.length (keys_mapAssign m k v)
  simp only [List.length_map] at this
  rw [this]
  split <;> simp

theorem pairwise_mapAssign {m : List (K × T)}
    (h : m.Pairwise (fun e₁ e₂ => keyEq e₁.1 e₂.1 = false)) (k : K) (v : T) :
    (mapAssign m k v).Pairwise (fun e₁ e₂ => keyEq e₁.1 e₂.1 = false) := by
  induction m with
  | nil => simp [mapAssign]
  | cons e m ih =>
    obtain ⟨k', v'⟩ := e
    rw [List.pairwise_cons] at h
    cases hk : keyEq k' k with
    | true =>
      simp only [mapAssign, hk, if_true]
      exact List.pairwise_cons.mpr ⟨h.1, h.2⟩
    | false =>
      simp only [mapAssign, hk]
      refine List.pairwise_cons.mpr ⟨?_, ih h.2⟩
      intro e he
      have hmem : e.1 ∈ (mapAssign m k v).map Prod.fst := List.mem_map.mpr ⟨e, he, rfl⟩
      rcases (mem_keys_mapAssign m k v e.1).mp hmem with h' | h'
      · obtain ⟨e', he', hfst⟩ := List.mem_map.mp h'
        have := h.1 e' he'
        simpa [hfst] using this
      · simpa [h'] using hk

theorem pairwise_mapDelete {m : List (K × T)}
    (h : m.Pairwise (fun e₁ e₂ => keyEq e₁.1 e₂.1 = false)) (k : K) :
    (mapDelete m k).Pairwise (fun e₁ e₂ => keyEq e₁.1 e₂.1 = false) :=
  h.filter _

theorem mapIndex_of_mem {m : List (K × T)}
    (hwf : m.Pairwise (fun e₁ e₂ => keyEq e₁.1 e₂.1 = false)) {e : K × T} (he : e ∈ m)
    (hself : Comparable.eqSelf e.1 = true) : mapIndex m e.1 = some e.2 := by
  induction m with
  | nil => cases he
  | cons e₀ m ih =>
    obtain ⟨k₀, v₀⟩ := e₀
    rw [List.pairwise_cons] at hwf
    rcases List.mem_cons.mp he with rfl | hin
    · simp [mapIndex, keyEq_self, hself]
    · have h0 : keyEq k₀ e.1 = false := hwf.1 e hin
      simp [mapIndex, h0, ih hwf.2 hin]

theorem mapIndex_perm {m₁ m₂ : List (K × T)} (hp : m₁.Perm m₂)
    (hwf : m₁.Pairwise (fun e₁ e₂ => keyEq e₁.1 e₂.1 = false)) (k : K) :
    mapIndex m₁ k = mapIndex m₂ k := by
  cases h : mapIndex m₁ k with
  | none =>
    symm
    refine mapIndex_eq_none.mpr ?_
    intro e he
    exact mapIndex_eq_none.mp h e (hp.symm.subset he)
  | some v =>
    obtain ⟨hmem, hself⟩ := mem_of_mapIndex h
    have hwf₂ : m₂.Pairwise (fun e₁ e₂ => keyEq e₁.1 e₂.1 = false) :=
      (hp.pairwise_iff (fun {x y} hxy => by rw [keyEq_comm]; exact hxy)).mp hwf
    exact (mapIndex_of_mem hwf₂ (hp.subset hmem) hself).symm

theorem mapAssign_mapAssign (m : List (K × T)) {k : K} (v₁ v₂ : T)
    (hself : Comparable.eqSelf k = true) :
    mapAssign (mapAssign m k v₁) k v₂ = mapAssign m k v₂ := by
  induction m with
  | nil => simp [mapAssign, keyEq_self, hself]
  | cons e m ih =>
    obtain ⟨k', v'⟩ := e
    cases hk : keyEq k' k with
    | true => simp [mapAssign, hk]
    | false => simp [mapAssign, hk, ih]

theorem count_keys_le_one {m : List (K × T)}
    (hwf : m.Pairwise (fun e₁ e₂ => keyEq e₁.1 e₂.1 = false)) {k : K}
    (hself : Comparable.eqSelf k = true) : (m.map Prod.fst).count k ≤ 1 := by
  induction m with
  | nil => simp
  | cons e m ih =>
    obtain ⟨k', v'⟩ := e
    rw [List.pairwise_cons] at hwf
    by_cases hk : k' = k
    · subst hk
      have hnot : k' ∉ m.map Prod.fst := by
        intro hin
        obtain ⟨e, he, hfst⟩ := List.mem_map.mp hin
        have := hwf.1 e he
        rw [hfst] at this
        simp only [] at this
        rw [keyEq_self, hself] at this
        cases this
      simp [List.count_eq_zero_of_not_mem hnot]
    · have := ih hwf.2
      simpa [List.count_cons, hk] using this

end GoMapLemmas

/-! ## Basic facts -/

section Lemmas

variable [DecidableEq K] [Comparable K]

theorem lookup_Set_self (c : Cache K V) (now : Time) {k : K} (v : V) (opts : List ItemOption)
    (hself : Comparable.eqSelf k = true) :
    mapIndex (Set c now k v opts).items k = some (NewItem now k v opts) :=
  mapIndex_mapAssign_self c.items _ hself

theorem lookup_Set_ne (c : Cache K V) (now : Time) {k k' : K} (v : V) (opts : List ItemOption)
    (h : keyEq k' k = false) :
    mapIndex (Set c now k v opts).items k' = mapIndex c.items k' :=
  mapIndex_mapAssign_ne c.items _ h

theorem lookup_Delete_self (c : Cache K V) (k : K) : mapIndex (Delete c k).items k = none :=
  mapIndex_mapDelete_self c.items k

theorem lookup_Delete_ne (c : Cache K V) {k k' : K} (h : keyEq k' k = false) :
    mapIndex (Delete c k).items k' = mapIndex c.items k' :=
  mapIndex_mapDelete_ne c.items h

theorem lookup_apply_of_not_writes (c : Cache K V) (k : K) (op : Op K V)
    (h : ¬ op.WritesTo k) : mapIndex (op.apply c).items k = mapIndex c.items k := by
  cases op with
  | set now k' v opts =>
    exact lookup_Set_ne c now v opts (keyEq_false_of_ne (fun e => h e.symm))
  | get _ _ => rfl
  | keys => rfl
  | delete k' => exact lookup_Delete_ne c (keyEq_false_of_ne (fun e => h e.symm))
  | contains _ _ => rfl

theorem lookup_runOps_of_not_writes (k : K) (ops : List (Op K V)) :
    ∀ c : Cache K V, (∀ op ∈ ops, ¬ op.WritesTo k) →
      mapIndex (runOps c ops).items k = mapIndex c.items k := by
  induction ops with
  | nil => intro c _; rfl
  | cons op ops ih =>
    intro c h
    have h1 := ih (op.apply c) (fun o ho => h o (List.mem_cons_of_mem _ ho))
    have h2 := lookup_apply_of_not_writes c k op (h op (List.mem_cons_self _ _))
    simpa [runOps, h2] using h1

theorem mem_storedKeys_Set (c : Cache K V) (now : Time) (k : K) (v : V)
    (opts : List ItemOption) (a : K) :
    a ∈ storedKeys (Set c now k v opts) ↔ a ∈ storedKeys c ∨ a = k :=
  mem_keys_mapAssign c.items k _ a

theorem mem_storedKeys_Delete (c : Cache K V) (k a : K) :
    a ∈ storedKeys (Delete c k) ↔ a ∈ storedKeys c ∧ keyEq a k = false := by
  simp [storedKeys, Delete, keys_mapDelete, List.mem_filter]

theorem mem_storedKeys_of_lookup {c : Cache K V} {k : K} {item : Item K V}
    (h : mapIndex c.items k = some item) : k ∈ storedKeys c :=
  List.mem_map.mpr ⟨(k, item), (mem_of_mapIndex h).1, rfl⟩

/-! ## Invariants of the reachable states -/

theorem WellFormed_Set {c : Cache K V} (h : WellFormed c) (now : Time) (k : K) (v : V)
    (opts : List ItemOption) : WellFormed (Set c now k v opts) :=
  pairwise_mapAssign h k _

theorem WellFormed_Delete {c : Cache K V} (h : WellFormed c) (k : K) :
    WellFormed (Delete c k) :=
  pairwise_mapDelete h k

theorem WellFormed_apply {c : Cache K V} (h : WellFormed c) (op : Op K V) :
    WellFormed (op.apply c) := by
  cases op with
  | set now k v opts => exact WellFormed_Set h now k v opts
  | get _ _ => exact h
  | keys => exact h
  | delete k => exact WellFormed_Delete h k
  | contains _ _ => exact h

theorem WellFormed_runOps (ops : List (Op K V)) :
    ∀ c : Cache K V, WellFormed c → WellFormed (runOps c ops) := by
  induction ops with
  | nil => intro c h; exact h
  | cons op ops ih => intro c h; exact ih (op.apply c) (WellFormed_apply h op)

/-- Every reachable state is a Go map: no two of its entries have keys that are `==`. -/
theorem WellFormed_of_Reachable {c : Cache K V} (h : Reachable c) : WellFormed c := by
  obtain ⟨ops, rfl⟩ := h
  exact WellFormed_runOps ops NewCache List.Pairwise.nil

theorem KeysEqualThemselves_Set {c : Cache K V} (h : KeysEqualThemselves c) (now : Time)
    {k : K} (v : V) (opts : List ItemOption) (hself : Comparable.eqSelf k = true) :
    KeysEqualThemselves (Set c now k v opts) := by
  intro e he
  have hmem : e.1 ∈ storedKeys (Set c now k v opts) := List.mem_map.mpr ⟨e, he, rfl⟩
  rcases (mem_storedKeys_Set c now k v opts e.1).mp hmem with h' | h'
  · obtain ⟨e', he', hfst⟩ := List.mem_map.mp h'
    rw [← hfst]
    exact h e' he'
  · rw [h']; exact hself

theorem KeysEqualThemselves_Delete {c : Cache K V} (h : KeysEqualThemselves c) (k : K) :
    KeysEqualThemselves (Delete c k) :=
  fun e he => h e (List.mem_filter.mp he).1

theorem storedKeys_nodup {c : Cache K V} (hwf : WellFormed c) (hh : KeysEqualThemselves c) :
    (storedKeys c).Nodup := by
  refine List.pairwise_map.mpr (List.Pairwise.imp_of_mem ?_ hwf)
  intro e₁ e₂ h₁ _ hk heq
  have hk' : keyEq e₁.1 e₂.1 = false := hk
  rw [← heq, keyEq_self, hh e₁ h₁] at hk'
  cases hk'

theorem key_field_apply (c : Cache K V)
    (hc : ∀ k item, mapIndex c.items k = some item → item.Key = k) (op : Op K V) :
    ∀ k item, mapIndex (op.apply c).items k = some item → item.Key = k := by
  intro k item h
  cases op with
  | set now k' v opts =>
    cases e : keyEq k k' with
    | true =>
      obtain ⟨rfl, hself⟩ := keyEq_iff.mp e
      rw [show (Op.set now k v opts).apply c = Set c now k v opts from rfl,
        lookup_Set_self c now v opts hself] at h
      rw [← Option.some.inj h]
      rfl
    | false =>
      rw [show (Op.set now k' v opts).apply c = Set c now k' v opts from rfl,
        lookup_Set_ne c now v opts e] at h
      exact hc k item h
  | get _ _ => exact hc k item h
  | keys => exact hc k item h
  | delete k' =>
    cases e : keyEq k k' with
    | true =>
      obtain ⟨rfl, _⟩ := keyEq_iff.mp e
      rw [show (Op.delete k : Op K V).apply c = Delete c k from rfl, lookup_Delete_self] at h
      cases h
    | false =>
      rw [show (Op.delete k' : Op K V).apply c = Delete c k' from rfl,
        lookup_Delete_ne c e] at h
      exact hc k item h
  | contains _ _ => exact hc k item h

theorem key_field_runOps (ops : List (Op K V)) :
    ∀ c : Cache K V, (∀ k item, mapIndex c.items k = some item → item.Key = k) →
      ∀ k item, mapIndex (runOps c ops).items k = some item → item.Key = k := by
  induction ops with
  | nil => intro c hc; exact hc
  | cons op ops ih => intro c hc; exact ih (op.apply c) (key_field_apply c hc op)

/-! ## Keys that are never set -/

theorem lookup_apply_of_no_set (c : Cache K V) (k : K) (op : Op K V)
    (hc : mapIndex c.items k = none) (h : ¬ op.SetsKey k) :
    mapIndex (op.apply c).items k = none := by
  cases op with
  | set now k' v opts =>
    rw [← hc]
    exact lookup_Set_ne c now v opts (keyEq_false_of_ne (fun e => h e.symm))
  | get _ _ => exact hc
  | keys => exact hc
  | delete k' =>
    cases e : keyEq k k' with
    | true =>
      obtain ⟨rfl, _⟩ := keyEq_iff.mp e
      exact lookup_Delete_self c k
    | false => rw [← hc]; exact lookup_Delete_ne c e
  | contains _ _ => exact hc

theorem lookup_runOps_of_no_set (k : K) (ops : List (Op K V)) :
    ∀ c : Cache K V, mapIndex c.items k = none → (∀ op ∈ ops, ¬ op.SetsKey k) →
      mapIndex (runOps c ops).items k = none := by
  induction ops with
  | nil => intro c hc _; exact hc
  | cons op ops ih =>
    intro c hc h
    exact ih (op.apply c) (lookup_apply_of_no_set c k op hc (h op (List.mem_cons_self _ _)))
      (fun o ho => h o (List.mem_cons_of_mem _ ho))

/-! ## `Delete` -/

theorem Delete_of_lookup_none (c : Cache K V) (k : K) (hk : mapIndex c.items k = none) :
    Delete c k = c := by
  cases c with
  | mk items =>
    simp only [Delete, Cache.mk.injEq]
    exact mapDelete_of_mapIndex_none hk

theorem createdAtOf_Delete_ne (c : Cache K V) {k a : K} (h : keyEq a k = false) :
    createdAtOf (Delete c k) a = createdAtOf c a := by
  simp [createdAtOf, lookup_Delete_ne c h]

/-! ## The enumeration of the keys -/

theorem createdAtOf_of_mem {c : Cache K V} (hwf : WellFormed c) {e : K × Item K V}
    (he : e ∈ c.items) (hself : Comparable.eqSelf e.1 = true) :
    createdAtOf c e.1 = e.2.CreatedAt := by
  simp [createdAtOf, mapIndex_of_mem hwf he hself]

theorem keysLess_of_mem {c : Cache K V} (hh : KeysEqualThemselves c) {a b : K}
    (ha : a ∈ storedKeys c) (hb : b ∈ storedKeys c) :
    keysLess c a b = some (Before (createdAtOf c a) (createdAtOf c b)) := by
  obtain ⟨ea, hea, rfl⟩ := List.mem_map.mp ha
  obtain ⟨eb, heb, rfl⟩ := List.mem_map.mp hb
  obtain ⟨i1, h1⟩ := mapIndex_isSome_of_mem (List.mem_map.mpr ⟨ea, hea, rfl⟩) (hh ea hea)
  obtain ⟨i2, h2⟩ := mapIndex_isSome_of_mem (List.mem_map.mpr ⟨eb, heb, rfl⟩) (hh eb heb)
  simp [keysLess, createdAtOf, h1, h2]

theorem keysLess_of_eqSelf_false (c : Cache K V) {x : K}
    (hx : Comparable.eqSelf x = false) (y : K) :
    keysLess c x y = none ∧ keysLess c y x = none := by
  have h := mapIndex_of_eqSelf_false c.items hx
  constructor
  · simp [keysLess, h]
  · unfold keysLess
    rw [h]
    cases mapIndex c.items y <;> rfl

/-- In a state whose stored keys are all `==` to themselves, `Keys` returns a rearrangement
of the keys of the map that is sorted by creation timestamp. -/
theorem Keys_spec {sortSlice : SliceSorter K} (hs : SortSliceContract sortSlice)
    (c : Cache K V) (hh : KeysEqualThemselves c) {visit : List Nat}
    (hr : RangeOrder c visit) :
    ∃ ys, Keys sortSlice c visit = some ys ∧ ys.Perm (storedKeys c) ∧
      ys.Pairwise (fun a b => createdAtOf c a ≤ createdAtOf c b) := by
  have hp := rangeKeys_perm c hr
  obtain ⟨ys, h1, h2, h3⟩ := hs (keysLess c) (createdAtOf c) (rangeKeys c visit)
    (fun a ha b hb => keysLess_of_mem hh (hp.subset ha) (hp.subset hb))
  exact ⟨ys, h1, h2.trans hp, h3⟩

/-- In a state with two entries or more, one of which has a key that is not `==` to itself,
`Keys` panics: the comparator indexes the map with that key, gets the nil pointer and reads
`CreatedAt` through it. -/
theorem Keys_panics {sortSlice : SliceSorter K} (hs : SortSlicePanics sortSlice)
    (c : Cache K V) {x : K} (hx : x ∈ storedKeys c) (hself : Comparable.eqSelf x = false)
    (hlen : 2 ≤ c.items.length) {visit : List Nat} (hr : RangeOrder c visit) :
    Keys sortSlice c visit = none := by
  have hp := rangeKeys_perm c hr
  refine hs.2 (keysLess c) (rangeKeys c visit) x ?_ (hp.symm.subset hx)
    (keysLess_of_eqSelf_false c hself)
  rw [hp.length_eq]
  simpa [storedKeys] using hlen

theorem createdAtOf_injective {c : Cache K V} (hwf : WellFormed c)
    (hh : KeysEqualThemselves c) (hd : DistinctCreatedAt c) :
    ∀ a ∈ storedKeys c, ∀ b ∈ storedKeys c, createdAtOf c a = createdAtOf c b → a = b := by
  intro a ha b hb hab
  obtain ⟨ea, hea, rfl⟩ := List.mem_map.mp ha
  obtain ⟨eb, heb, rfl⟩ := List.mem_map.mp hb
  rw [createdAtOf_of_mem hwf hea (hh ea hea), createdAtOf_of_mem hwf heb (hh eb heb)] at hab
  by_contra hne
  have hne' : ea ≠ eb := fun e => hne (by rw [e])
  exact List.Pairwise.forall
    (R := fun e₁ e₂ : K × Item K V => e₁.2.CreatedAt ≠ e₂.2.CreatedAt)
    (fun _ _ h => h.symm) hd hea heb hne' hab

/-- Without ties among the creation timestamps, `Keys` returns the one rearrangement of the
keys that is sorted by creation timestamp. -/
theorem Keys_eq_of_sorted {sortSlice : SliceSorter K} (hs : SortSliceContract sortSlice)
    (c : Cache K V) (hwf : WellFormed c) (hh : KeysEqualThemselves c) {visit : List Nat}
    (hr : RangeOrder c visit)
    (hinj : ∀ a ∈ storedKeys c, ∀ b ∈ storedKeys c,
      createdAtOf c a = createdAtOf c b → a = b)
    {l : List K} (hl : l.Perm (storedKeys c))
    (hsorted : l.Pairwise (fun a b => createdAtOf c a ≤ createdAtOf c b)) :
    Keys sortSlice c visit = some l := by
  obtain ⟨ys, h1, h2, h3⟩ := Keys_spec hs c hh hr
  rw [h1]
  congr 1
  refine sorted_perm_unique (createdAtOf c) (h2.trans hl.symm)
    (h2.nodup_iff.mpr (storedKeys_nodup hwf hh)) ?_ h3 hsorted
  intro a ha b hb
  exact hinj a (h2.subset ha) b (h2.subset hb)

/-! ## Sequences of `Set` -/

theorem setAll_cons (c : Cache K V) (s : SetCall K V) (calls : List (SetCall K V)) :
    setAll c (s :: calls) = setAll (Set c s.now s.k s.v s.opts) calls := rfl

theorem lookup_setAll_of_not_mem (k : K) (calls : List (SetCall K V)) :
    ∀ c : Cache K V, k ∉ calls.map (fun s => s.k) →
      mapIndex (setAll c calls).items k = mapIndex c.items k := by
  induction calls with
  | nil => intro c _; rfl
  | cons s calls ih =>
    intro c h
    simp only [List.map_cons, List.mem_cons, not_or] at h
    rw [setAll_cons, ih _ h.2, lookup_Set_ne c s.now s.v s.opts (keyEq_false_of_ne h.1)]

theorem lookup_setAll_of_mem (calls : List (SetCall K V)) :
    ∀ c : Cache K V, (calls.map (fun s => s.k)).Nodup → ∀ s ∈ calls,
      Comparable.eqSelf s.k = true →
      mapIndex (setAll c calls).items s.k = some (NewItem s.now s.k s.v s.opts) := by
  induction calls with
  | nil => intro c _ s hs; cases hs
  | cons s0 calls ih =>
    intro c hnd s hs hself
    simp only [List.map_cons, List.nodup_cons] at hnd
    rw [setAll_cons]
    rcases List.mem_cons.mp hs with rfl | hs
    · rw [lookup_setAll_of_not_mem _ _ _ hnd.1, lookup_Set_self _ _ _ _ hself]
    · exact ih _ hnd.2 s hs hself

theorem mem_setAll (calls : List (SetCall K V)) :
    ∀ (c : Cache K V) (k : K),
      k ∈ storedKeys (setAll c calls) ↔ k ∈ storedKeys c ∨ k ∈ calls.map (fun s => s.k) := by
  induction calls with
  | nil => intro c k; simp [setAll]
  | cons s calls ih =>
    intro c k
    rw [setAll_cons, ih, mem_storedKeys_Set]
    simp only [List.map_cons, List.mem_cons]
    tauto

theorem WellFormed_setAll (calls : List (SetCall K V)) :
    ∀ c : Cache K V, WellFormed c → WellFormed (setAll c calls) := by
  induction calls with
  | nil => intro c h; exact h
  | cons s calls ih => intro c h; exact ih _ (WellFormed_Set h s.now s.k s.v s.opts)

theorem KeysEqualThemselves_setAll (calls : List (SetCall K V)) :
    ∀ c : Cache K V, KeysEqualThemselves c →
      (∀ s ∈ calls, Comparable.eqSelf s.k = true) → KeysEqualThemselves (setAll c calls) := by
  induction calls with
  | nil => intro c h _; exact h
  | cons s calls ih =>
    intro c h hself
    exact ih _ (KeysEqualThemselves_Set h s.now s.v s.opts (hself s (List.mem_cons_self _ _)))
      (fun s' hs' => hself s' (List.mem_cons_of_mem _ hs'))

/-- Keys that are `==` to themselves, set one after the other into a new cache, pairwise
distinct and at strictly increasing clock readings, are enumerated by `Keys` in the order
of insertion. -/
theorem Keys_setAll {sortSlice : SliceSorter K} (hs : SortSliceContract sortSlice)
    (calls : List (SetCall K V)) (visit : List Nat)
    (hself : ∀ s ∈ calls, Comparable.eqSelf s.k = true)
    (hnd : (calls.map (fun s => s.k)).Nodup)
    (hinc : (calls.map (fun s => s.now)).Pairwise (fun t u => t < u))
    (hr : RangeOrder (setAll (NewCache : Cache K V) calls) visit) :
    Keys sortSlice (setAll (NewCache : Cache K V) calls) visit
      = some (calls.map (fun s => s.k)) := by
  have hcreated : ∀ s ∈ calls,
      createdAtOf (setAll (NewCache : Cache K V) calls) s.k = s.now := by
    intro s hs
    simp [createdAtOf, lookup_setAll_of_mem calls NewCache hnd s hs (hself s hs), NewItem]
  have hmem : ∀ k, k ∈ storedKeys (setAll (NewCache : Cache K V) calls) ↔
      k ∈ calls.map (fun s => s.k) := by
    intro k
    rw [mem_setAll]
    simp [NewCache, storedKeys]
  have hinc' : calls.Pairwise (fun s s' => s.now < s'.now) := List.pairwise_map.mp hinc
  have hwf : WellFormed (setAll (NewCache : Cache K V) calls) :=
    WellFormed_setAll calls NewCache List.Pairwise.nil
  have hh : KeysEqualThemselves (setAll (NewCache : Cache K V) calls) :=
    KeysEqualThemselves_setAll calls NewCache (fun e he => by cases he) hself
  refine Keys_eq_of_sorted hs _ hwf hh hr ?_ ?_ ?_
  · intro a ha b hb hab
    obtain ⟨s, hs, rfl⟩ := List.mem_map.mp ((hmem a).mp ha)
    obtain ⟨s', hs', rfl⟩ := List.mem_map.mp ((hmem b).mp hb)
    rw [hcreated s hs, hcreated s' hs'] at hab
    by_contra hne
    have hss : s ≠ s' := fun e => hne (by rw [e])
    have := List.Pairwise.forall (R := fun s s' : SetCall K V => s.now ≠ s'.now)
      (fun _ _ h => h.symm) (hinc'.imp (fun h => ne_of_lt h)) hs hs' hss
    exact this hab
  · refine (List.perm_ext_iff_of_nodup hnd (storedKeys_nodup hwf hh)).mpr ?_
    intro k
    rw [hmem]
  · refine List.pairwise_map.mpr (hinc'.imp_of_mem ?_)
    intro s s' hs hs' hlt
    rw [hcreated s hs, hcreated s' hs']
    exact le_of_lt hlt

/-! ## `Set` at a fresh, latest timestamp -/

theorem createdAtOf_Set_self (c : Cache K V) (t : Time) {k : K} (v : V)
    (opts : List ItemOption) (hself : Comparable.eqSelf k = true) :
    createdAtOf (Set c t k v opts) k = t := by
  simp [createdAtOf, lookup_Set_self c t v opts hself, NewItem]

theorem createdAtOf_Set_ne (c : Cache K V) (t : Time) {k a : K} (v : V)
    (opts : List ItemOption) (h : keyEq a k = false) :
    createdAtOf (Set c t k v opts) a = createdAtOf c a := by
  simp [createdAtOf, lookup_Set_ne c t v opts h]

/-- In a state that is a Go map whose keys are all `==` to themselves, a `Set` on such a key
`k` at a clock reading later than every stored creation timestamp moves `k` to the end of
the enumeration and leaves the other keys in their order. -/
theorem Keys_Set_latest {sortSlice : SliceSorter K} (hs : SortSliceContract sortSlice)
    (c : Cache K V) (hwf : WellFormed c) (hh : KeysEqualThemselves c)
    (hd : DistinctCreatedAt c) (t : Time) (ht : ∀ e ∈ c.items, e.2.CreatedAt < t)
    {k : K} (hself : Comparable.eqSelf k = true) (v : V) (opts : List ItemOption)
    (visit visit' : List Nat) (hr : RangeOrder c visit)
    (hr' : RangeOrder (Set c t k v opts) visit') :
    ∃ ys, Keys sortSlice c visit = some ys ∧
      Keys sortSlice (Set c t k v opts) visit' = some (ys.filter (fun a => a ≠ k) ++ [k]) := by
  obtain ⟨ys, h1, h2, h3⟩ := Keys_spec hs c hh hr
  refine ⟨ys, h1, ?_⟩
  have hinj := createdAtOf_injective hwf hh hd
  have ht' : ∀ a ∈ storedKeys c, createdAtOf c a < t := by
    intro a ha
    obtain ⟨e, he, rfl⟩ := List.mem_map.mp ha
    rw [createdAtOf_of_mem hwf he (hh e he)]
    exact ht e he
  have hin : ∀ a, a ∈ ys.filter (fun a => a ≠ k) → a ∈ storedKeys c ∧ a ≠ k := by
    intro a ha
    have := List.mem_filter.mp ha
    exact ⟨h2.subset this.1, by simpa using this.2⟩
  have hysnd : ys.Nodup := h2.nodup_iff.mpr (storedKeys_nodup hwf hh)
  refine Keys_eq_of_sorted hs (Set c t k v opts) (WellFormed_Set hwf t k v opts)
    (KeysEqualThemselves_Set hh t v opts hself) hr' ?_ ?_ ?_
  · intro a ha b hb hab
    have ha' := (mem_storedKeys_Set c t k v opts a).mp ha
    have hb' := (mem_storedKeys_Set c t k v opts b).mp hb
    by_cases hak : a = k
    · by_cases hbk : b = k
      · rw [hak, hbk]
      · exfalso
        have hbm : b ∈ storedKeys c := hb'.resolve_right hbk
        rw [hak, createdAtOf_Set_self c t v opts hself,
          createdAtOf_Set_ne c t v opts (keyEq_false_of_ne hbk)] at hab
        exact absurd hab.symm (ne_of_lt (ht' b hbm))
    · have ham : a ∈ storedKeys c := ha'.resolve_right hak
      by_cases hbk : b = k
      · exfalso
        rw [hbk, createdAtOf_Set_self c t v opts hself,
          createdAtOf_Set_ne c t v opts (keyEq_false_of_ne hak)] at hab
        exact absurd hab (ne_of_lt (ht' a ham))
      · rw [createdAtOf_Set_ne c t v opts (keyEq_false_of_ne hak),
          createdAtOf_Set_ne c t v opts (keyEq_false_of_ne hbk)] at hab
        exact hinj a ham b (hb'.resolve_right hbk) hab
  · refine (List.perm_ext_iff_of_nodup ?_ (storedKeys_nodup (WellFormed_Set hwf t k v opts)
      (KeysEqualThemselves_Set hh t v opts hself))).mpr ?_
    · refine List.Nodup.append (hysnd.filter _) (List.nodup_singleton k) ?_
      intro a ha hak
      exact (hin a ha).2 (List.mem_singleton.mp hak)
    · intro a
      rw [mem_storedKeys_Set, List.mem_append, List.mem_singleton, List.mem_filter,
        h2.mem_iff]
      by_cases hak : a = k
      · simp [hak]
      · simp [hak]
  · refine List.pairwise_append.mpr ⟨?_, List.pairwise_singleton _ _, ?_⟩
    · refine ((h3.filter _).imp_of_mem ?_)
      intro a b ha hb hab
      rw [createdAtOf_Set_ne c t v opts (keyEq_false_of_ne (hin a ha).2),
        createdAtOf_Set_ne c t v opts (keyEq_false_of_ne (hin b hb).2)]
      exact hab
    · intro a ha b hb
      rw [List.mem_singleton.mp hb, createdAtOf_Set_self c t v opts hself,
        createdAtOf_Set_ne c t v opts (keyEq_false_of_ne (hin a ha).2)]
      exact le_of_lt (ht' a (hin a ha).1)

/-- In a state that is a Go map whose keys are all `==` to themselves and whose creation
timestamps are pairwise distinct, `Keys` after `Delete(k)` is `Keys` before the call with
`k` filtered out. -/
theorem Keys_Delete {sortSlice : SliceSorter K} (hs : SortSliceContract sortSlice)
    (c : Cache K V) (hwf : WellFormed c) (hh : KeysEqualThemselves c)
    (hd : DistinctCreatedAt c) (k : K) (visit visit' : List Nat)
    (hr : RangeOrder c visit) (hr' : RangeOrder (Delete c k) visit') :
    ∃ ys, Keys sortSlice c visit = some ys ∧
      Keys sortSlice (Delete c k) visit' = some (ys.filter (fun a => a ≠ k)) := by
  obtain ⟨ys, h1, h2, h3⟩ := Keys_spec hs c hh hr
  refine ⟨ys, h1, ?_⟩
  have hinj := createdAtOf_injective hwf hh hd
  have hin : ∀ a, a ∈ ys.filter (fun a => a ≠ k) → a ∈ storedKeys c ∧ a ≠ k := by
    intro a ha
    have := List.mem_filter.mp ha
    exact ⟨h2.subset this.1, by simpa using this.2⟩
  have hysnd : ys.Nodup := h2.nodup_iff.mpr (storedKeys_nodup hwf hh)
  refine Keys_eq_of_sorted hs (Delete c k) (WellFormed_Delete hwf k)
    (KeysEqualThemselves_Delete hh k) hr' ?_ ?_ ?_
  · intro a ha b hb hab
    have ha' := (mem_storedKeys_Delete c k a).mp ha
    have hb' := (mem_storedKeys_Delete c k b).mp hb
    rw [createdAtOf_Delete_ne c ha'.2, createdAtOf_Delete_ne c hb'.2] at hab
    exact hinj a ha'.1 b hb'.1 hab
  · refine (List.perm_ext_iff_of_nodup (hysnd.filter _)
      (storedKeys_nodup (WellFormed_Delete hwf k) (KeysEqualThemselves_Delete hh k))).mpr ?_
    intro a
    rw [mem_storedKeys_Delete, List.mem_filter, h2.mem_iff]
    constructor
    · rintro ⟨ha, hak⟩
      exact ⟨ha, keyEq_false_of_ne (by simpa using hak)⟩
    · rintro ⟨ha, hak⟩
      refine ⟨ha, ?_⟩
      obtain ⟨e, he, rfl⟩ := List.mem_map.mp ha
      have hne : e.1 ≠ k := by
        intro heq
        rw [heq, keyEq_self] at hak
        rw [← heq, hh e he] at hak
        cases hak
      simpa using hne
  · refine (h3.filter _).imp_of_mem ?_
    intro a b ha hb hab
    rw [createdAtOf_Delete_ne c (keyEq_false_of_ne (hin a ha).2),
      createdAtOf_Delete_ne c (keyEq_false_of_ne (hin b hb).2)]
    exact hab

/-! ## The example states -/

theorem exampleExpiring_reachable : Reachable exampleExpiring :=
  ⟨[Op.set 1 "a" 1 [], Op.set 2 "b" 2 [], Op.set 3 "x" 9 [ItemOption.expiresAfter 4]], rfl⟩

theorem exampleExpiring_wellFormed : WellFormed exampleExpiring :=
  WellFormed_of_Reachable exampleExpiring_reachable

theorem exampleExpiring_keysEqualThemselves : KeysEqualThemselves exampleExpiring :=
  fun _ _ => rfl

theorem exampleExpiring_distinct : DistinctCreatedAt exampleExpiring := by
  unfold DistinctCreatedAt
  decide

theorem exampleNaN_reachable : Reachable exampleNaN :=
  ⟨[Op.set 1 (Float64.halves 3) 1 [], Op.set 2 Float64.NaN 2 []], rfl⟩

/-! ## The claims -/

/-- C1, as stated, fails for a key that is not `==` to itself: on a new `Cache[float64, int]`,
after `Set(NaN, 7)` the entry is stored, yet `Get(NaN)` returns `(0, false)`, not
`(7, true)`, and `Contains(NaN)` returns false. -/
theorem set_then_get_misses_NaN :
    storedKeys (Set (NewCache : Cache Float64 Int) 1 Float64.NaN 7 []) = [Float64.NaN] ∧
      Get (Set (NewCache : Cache Float64 Int) 1 Float64.NaN 7 []) 2 Float64.NaN = (0, false) ∧
      Get (Set (NewCache : Cache Float64 Int) 1 Float64.NaN 7 []) 2 Float64.NaN ≠ (7, true) ∧
      Contains (Set (NewCache : Cache Float64 Int) 1 Float64.NaN 7 []) 2 Float64.NaN = false := by
  decide

/-- C1, amended: for every key `k` that is `==` to itself, after `Set(k, v)` without options,
whatever calls follow, as long as none of them is a `Set` or a `Delete` on `k`, `Get(k)`
returns `(v, true)` and `Contains(k)` returns true at every clock reading: an item stored
without expiration option never expires. This holds from every state of the cache, in
particular from every state reachable from `NewCache`. -/
theorem set_then_get_never_expires [Inhabited V] (c : Cache K V) (t : Time) (k : K)
    (hself : Comparable.eqSelf k = true) (v : V)
    (ops : List (Op K V)) (hops : ∀ op ∈ ops, ¬ op.WritesTo k) (now : Time) :
    Get (runOps (Set c t k v []) ops) now k = (v, true) ∧
      Contains (runOps (Set c t k v []) ops) now k = true := by
  have h : mapIndex (runOps (Set c t k v []) ops).items k = some (NewItem t k v []) := by
    rw [lookup_runOps_of_not_writes k ops _ hops, lookup_Set_self c t v [] hself]
  simp [Get, Contains, h, Item.HasExpired, NewItem]

theorem set_then_get_never_expires_witness :
    Comparable.eqSelf "a" = true ∧
      (∀ op ∈ [Op.set 2 "b" 2 [], Op.get 3 "a", Op.delete "c", Op.keys, Op.contains 4 "a"],
        ¬ Op.WritesTo (V := Int) "a" op) ∧
      Get (runOps (Set (NewCache : Cache String Int) 1 "a" 7 [])
        [Op.set 2 "b" 2 [], Op.get 3 "a", Op.delete "c", Op.keys, Op.contains 4 "a"]) 100 "a"
        = (7, true) ∧
      Contains (runOps (Set (NewCache : Cache String Int) 1 "a" 7 [])
        [Op.set 2 "b" 2 [], Op.get 3 "a", Op.delete "c", Op.keys, Op.contains 4 "a"]) 100 "a"
        = true :=
  have h : ∀ op ∈ [Op.set 2 "b" 2 [], Op.get 3 "a", Op.delete "c", Op.keys,
      Op.contains 4 "a"], ¬ Op.WritesTo (V := Int) "a" op := by
    simp [Op.WritesTo]
  ⟨rfl, h, set_then_get_never_expires NewCache 1 "a" rfl 7 _ h 100⟩

/-- C2: `Get` is characterised by three cases. If `k` has no entry, `Get(k)` is the zero
value and false; if `k` has an entry that has expired, `Get(k)` is the zero value and false;
if `k` has an entry with value `v` that has not expired, `Get(k)` is `(v, true)`. The
returned bool is true exactly when `k` is present and not expired, and whenever it is false
the returned value is the zero value. -/
theorem get_three_cases [Inhabited V] (c : Cache K V) (now : Time) (k : K) :
    (mapIndex c.items k = none → Get c now k = (default, false)) ∧
      (∀ got, mapIndex c.items k = some got → got.HasExpired now = true →
        Get c now k = (default, false)) ∧
      (∀ got, mapIndex c.items k = some got → got.HasExpired now = false →
        Get c now k = (got.Value, true)) ∧
      ((Get c now k).2 = true ↔
        ∃ got, mapIndex c.items k = some got ∧ got.HasExpired now = false) ∧
      ((Get c now k).2 = false → (Get c now k).1 = default) := by
  refine ⟨?_, ?_, ?_, ?_, ?_⟩
  · intro h; simp [Get, h]
  · intro got h he; simp [Get, h, he]
  · intro got h he; simp [Get, h, he]
  · cases h : mapIndex c.items k with
    | none => simp [Get, h]
    | some got => cases he : got.HasExpired now <;> simp [Get, h, he]
  · cases h : mapIndex c.items k with
    | none => simp [Get, h]
    | some got => cases he : got.HasExpired now <;> simp [Get, h, he]

/-- C3, as stated, fails for a key that is not `==` to itself: on a new `Cache[float64, int]`,
after `Set(NaN, 1)` followed by `Set(NaN, 2)` the map holds two entries, and `Get(NaN)`
returns `(0, false)`, not `(2, true)`. -/
theorem set_twice_adds_two_entries_NaN :
    storedKeys (Set (Set (NewCache : Cache Float64 Int) 1 Float64.NaN 1 []) 2 Float64.NaN 2 [])
        = [Float64.NaN, Float64.NaN] ∧
      Get (Set (Set (NewCache : Cache Float64 Int) 1 Float64.NaN 1 []) 2 Float64.NaN 2 [])
        3 Float64.NaN = (0, false) ∧
      Get (Set (Set (NewCache : Cache Float64 Int) 1 Float64.NaN 1 []) 2 Float64.NaN 2 [])
        3 Float64.NaN ≠ (2, true) := by
  decide

/-- C3, amended: overwrite, not merge, for every key `k` that is `==` to itself. After
`Set(k, v1, opts...)` followed by `Set(k, v2)` without options, the state is the one that
the second `Set` alone would have produced (value and expiration of the old item are
discarded), and `Get(k)` returns `(v2, true)` at every clock reading; this holds from every
state. From a state that is a Go map, as every reachable state is, the map then holds one
entry under `k`; and when moreover every stored key is `==` to itself, `Keys()` returns and
`k` occurs exactly once in it. -/
theorem set_twice_overwrites [Inhabited V] {sortSlice : SliceSorter K}
    (hs : SortSliceContract sortSlice) (c : Cache K V) (t1 t2 : Time) (k : K)
    (hself : Comparable.eqSelf k = true) (v1 v2 : V) (opts : List ItemOption) (now : Time) :
    Set (Set c t1 k v1 opts) t2 k v2 [] = Set c t2 k v2 [] ∧
      mapIndex (Set (Set c t1 k v1 opts) t2 k v2 []).items k = some (NewItem t2 k v2 []) ∧
      Get (Set (Set c t1 k v1 opts) t2 k v2 []) now k = (v2, true) ∧
      (WellFormed c → (storedKeys (Set (Set c t1 k v1 opts) t2 k v2 [])).count k = 1) ∧
      (WellFormed c → KeysEqualThemselves c →
        ∀ visit, RangeOrder (Set (Set c t1 k v1 opts) t2 k v2 []) visit →
          ∃ ys, Keys sortSlice (Set (Set c t1 k v1 opts) t2 k v2 []) visit = some ys ∧
            ys.count k = 1) := by
  have hlook := lookup_Set_self (Set c t1 k v1 opts) t2 v2 [] hself
  have hcount : WellFormed c →
      (storedKeys (Set (Set c t1 k v1 opts) t2 k v2 [])).count k = 1 := by
    intro hwf
    have hwf' : WellFormed (Set (Set c t1 k v1 opts) t2 k v2 []) :=
      WellFormed_Set (WellFormed_Set hwf t1 k v1 opts) t2 k v2 []
    have hle := count_keys_le_one hwf' hself
    have hpos : 0 < (storedKeys (Set (Set c t1 k v1 opts) t2 k v2 [])).count k :=
      List.count_pos_iff.mpr (mem_storedKeys_of_lookup hlook)
    unfold storedKeys at hpos ⊢
    omega
  refine ⟨?_, hlook, ?_, hcount, ?_⟩
  · simp only [Set, Cache.mk.injEq]
    exact mapAssign_mapAssign c.items _ _ hself
  · simp [Get, hlook, Item.HasExpired, NewItem]
  · intro hwf hh visit hr
    have hh' : KeysEqualThemselves (Set (Set c t1 k v1 opts) t2 k v2 []) :=
      KeysEqualThemselves_Set (KeysEqualThemselves_Set hh t1 v1 opts hself) t2 v2 [] hself
    obtain ⟨ys, h1, h2, _⟩ := Keys_spec hs _ hh' hr
    exact ⟨ys, h1, by rw [h2.count_eq]; exact hcount hwf⟩

theorem set_twice_overwrites_witness :
    SortSliceContract (insertionSort : SliceSorter String) ∧
      Comparable.eqSelf "x" = true ∧ WellFormed exampleExpiring ∧
      KeysEqualThemselves exampleExpiring ∧
      RangeOrder (Set (Set exampleExpiring 8 "x" 5 [ItemOption.expiresAt 9]) 10 "x" 6 [])
        [1, 2, 0] ∧
      Set (Set exampleExpiring 8 "x" 5 [ItemOption.expiresAt 9]) 10 "x" 6 []
        = Set exampleExpiring 10 "x" 6 [] ∧
      mapIndex (Set (Set exampleExpiring 8 "x" 5 [ItemOption.expiresAt 9]) 10 "x" 6 []).items "x"
        = some (NewItem 10 "x" 6 []) ∧
      Get (Set (Set exampleExpiring 8 "x" 5 [ItemOption.expiresAt 9]) 10 "x" 6 []) 1000 "x"
        = (6, true) ∧
      (storedKeys (Set (Set exampleExpiring 8 "x" 5 [ItemOption.expiresAt 9]) 10 "x" 6 [])).count
        "x" = 1 ∧
      ∃ ys, Keys insertionSort
          (Set (Set exampleExpiring 8 "x" 5 [ItemOption.expiresAt 9]) 10 "x" 6 [])
          [1, 2, 0] = some ys ∧ ys.count "x" = 1 :=
  have hr : RangeOrder (Set (Set exampleExpiring 8 "x" 5 [ItemOption.expiresAt 9]) 10 "x" 6 [])
      [1, 2, 0] := by
    unfold RangeOrder; decide
  have h := set_twice_overwrites insertionSort_contract exampleExpiring 8 10 "x" rfl 5 6
    [ItemOption.expiresAt 9] 1000
  ⟨insertionSort_contract, rfl, exampleExpiring_wellFormed, exampleExpiring_keysEqualThemselves,
    hr, h.1, h.2.1, h.2.2.1, h.2.2.2.1 exampleExpiring_wellFormed,
    h.2.2.2.2 exampleExpiring_wellFormed exampleExpiring_keysEqualThemselves [1, 2, 0] hr⟩

/-- C4, as stated, fails for a key that is not `==` to itself: on a new `Cache[float64, int]`,
after `Set(NaN, 1)` followed by `Delete(NaN)` the entry is still in the map, and `Keys()`
returns the sequence that holds `NaN`. -/
theorem delete_keeps_NaN_entry :
    storedKeys (Delete (Set (NewCache : Cache Float64 Int) 1 Float64.NaN 1 []) Float64.NaN)
        = [Float64.NaN] ∧
      RangeOrder (Delete (Set (NewCache : Cache Float64 Int) 1 Float64.NaN 1 []) Float64.NaN)
        [0] ∧
      Keys insertionSort
        (Delete (Set (NewCache : Cache Float64 Int) 1 Float64.NaN 1 []) Float64.NaN) [0]
        = some [Float64.NaN] := by
  refine ⟨by decide, ?_, by decide⟩
  unfold RangeOrder
  decide

/-- C4, amended: after `Set(k, v, opts...)` followed by `Delete(k)`, `Get(k)` returns the
zero value and false and `Contains(k)` returns false, for every key and from every state.
When `k` is `==` to itself, no entry of the map has the key `k` any more; and when moreover
every stored key is `==` to itself, `Keys()` returns and `k` does not occur in it. -/
theorem set_then_delete [Inhabited V] {sortSlice : SliceSorter K}
    (hs : SortSliceContract sortSlice) (c : Cache K V) (t : Time) (k : K) (v : V)
    (opts : List ItemOption) (now : Time) :
    Get (Delete (Set c t k v opts) k) now k = (default, false) ∧
      Contains (Delete (Set c t k v opts) k) now k = false ∧
      (Comparable.eqSelf k = true → k ∉ storedKeys (Delete (Set c t k v opts) k)) ∧
      (Comparable.eqSelf k = true → KeysEqualThemselves c →
        ∀ visit, RangeOrder (Delete (Set c t k v opts) k) visit →
          ∃ ys, Keys sortSlice (Delete (Set c t k v opts) k) visit = some ys ∧ k ∉ ys) := by
  have hgone : Comparable.eqSelf k = true → k ∉ storedKeys (Delete (Set c t k v opts) k) := by
    intro hself hin
    have := ((mem_storedKeys_Delete (Set c t k v opts) k k).mp hin).2
    rw [keyEq_self, hself] at this
    cases this
  refine ⟨?_, ?_, hgone, ?_⟩
  · simp [Get, lookup_Delete_self]
  · simp [Contains, lookup_Delete_self]
  · intro hself hh visit hr
    have hh' : KeysEqualThemselves (Delete (Set c t k v opts) k) :=
      KeysEqualThemselves_Delete (KeysEqualThemselves_Set hh t v opts hself) k
    obtain ⟨ys, h1, h2, _⟩ := Keys_spec hs _ hh' hr
    exact ⟨ys, h1, fun hk => hgone hself (h2.subset hk)⟩

theorem set_then_delete_witness :
    SortSliceContract (insertionSort : SliceSorter String) ∧
      Comparable.eqSelf "k" = true ∧ KeysEqualThemselves exampleAB ∧
      RangeOrder (Delete (Set exampleAB 3 "k" 5 [ItemOption.expiresAfter 10]) "k") [1, 0] ∧
      Get (Delete (Set exampleAB 3 "k" 5 [ItemOption.expiresAfter 10]) "k") 4 "k" = (0, false) ∧
      Contains (Delete (Set exampleAB 3 "k" 5 [ItemOption.expiresAfter 10]) "k") 4 "k" = false ∧
      "k" ∉ storedKeys (Delete (Set exampleAB 3 "k" 5 [ItemOption.expiresAfter 10]) "k") ∧
      ∃ ys, Keys insertionSort (Delete (Set exampleAB 3 "k" 5 [ItemOption.expiresAfter 10]) "k")
          [1, 0] = some ys ∧ "k" ∉ ys :=
  have hr : RangeOrder (Delete (Set exampleAB 3 "k" 5 [ItemOption.expiresAfter 10]) "k")
      [1, 0] := by
    unfold RangeOrder; decide
  have hh : KeysEqualThemselves exampleAB := fun _ _ => rfl
  have h := set_then_delete insertionSort_contract exampleAB 3 "k" 5
    [ItemOption.expiresAfter 10] 4
  ⟨insertionSort_contract, rfl, hh, hr, h.1, h.2.1, h.2.2.1 rfl, h.2.2.2 rfl hh [1, 0] hr⟩

/-- C5, at a state the code reaches: on a new `Cache[float64, int]`, `Set(NaN, 1)` at clock
reading 1, then `Set(2.0, 5)` at clock reading 2 with an expiration after 1 tick. At clock
reading 10 the key 2.0 holds an item that expired at 3, `Get(2.0)` returns `(0, false)` and
`Contains(2.0)` returns false, as specified; but `Keys()` panics, whatever the order of the
iteration, where the specification has it return a sequence that holds 2.0. -/
theorem expired_key_keys_panics :
    Reachable exampleNaNExpiring ∧
      mapIndex exampleNaNExpiring.items (Float64.halves 4)
        = some (NewItem 2 (Float64.halves 4) 5 [ItemOption.expiresAfter 1]) ∧
      (NewItem 2 (Float64.halves 4) (5 : Int) [ItemOption.expiresAfter 1]).Expiration = some 3 ∧
      Get exampleNaNExpiring 10 (Float64.halves 4) = (0, false) ∧
      Contains exampleNaNExpiring 10 (Float64.halves 4) = false ∧
      RangeOrder exampleNaNExpiring [0, 1] ∧ RangeOrder exampleNaNExpiring [1, 0] ∧
      Keys insertionSort exampleNaNExpiring [0, 1] = none ∧
      Keys insertionSort exampleNaNExpiring [1, 0] = none ∧
      ∀ sortSlice : SliceSorter Float64, SortSlicePanics sortSlice →
        ∀ visit, RangeOrder exampleNaNExpiring visit →
          Keys sortSlice exampleNaNExpiring visit = none := by
  refine ⟨⟨[Op.set 1 Float64.NaN 1 [], Op.set 2 (Float64.halves 4) 5
    [ItemOption.expiresAfter 1]], rfl⟩, by decide, by decide, by decide, by decide, ?_, ?_,
    by decide, by decide, ?_⟩
  · unfold RangeOrder; decide
  · unfold RangeOrder; decide
  · intro sortSlice hp visit hr
    have hx : Float64.NaN ∈ storedKeys exampleNaNExpiring := by decide
    exact Keys_panics hp _ hx rfl (by decide) hr

/-- C6, at a state the code reaches: on a new `Cache[float64, int]`, `Set(1.5, 1)` then
`Set(NaN, 2)`. The map holds the two keys, and `Keys()` panics, whatever the order of the
iteration, where the specification has it return a rearrangement of the two keys. -/
theorem keys_panics_instead_of_listing :
    Reachable exampleNaN ∧ storedKeys exampleNaN = [Float64.halves 3, Float64.NaN] ∧
      RangeOrder exampleNaN [0, 1] ∧ RangeOrder exampleNaN [1, 0] ∧
      Keys insertionSort exampleNaN [0, 1] = none ∧
      Keys insertionSort exampleNaN [1, 0] = none ∧
      ∀ sortSlice : SliceSorter Float64, SortSlicePanics sortSlice →
        ∀ visit, RangeOrder exampleNaN visit → Keys sortSlice exampleNaN visit = none := by
  refine ⟨exampleNaN_reachable, by decide, ?_, ?_, by decide, by decide, ?_⟩
  · unfold RangeOrder; decide
  · unfold RangeOrder; decide
  · intro sortSlice hp visit hr
    have hx : Float64.NaN ∈ storedKeys exampleNaN := by decide
    exact Keys_panics hp _ hx rfl (by decide) hr

/-- C7, at a state the code reaches: on a new `Cache[float64, int]`, `Set(NaN, 1)`,
`Set(1.5, 2)` and `Set(2.5, 3)` at the clock readings 1, 2 and 3. `Keys()` panics, whatever
the order of the iteration, where the specification has it return the keys in the order of
their creation timestamps. -/
theorem keys_panics_instead_of_sorting :
    Reachable exampleNaNFirst ∧
      exampleNaNFirst.items.map (fun e => (e.1, e.2.CreatedAt))
        = [(Float64.NaN, 1), (Float64.halves 3, 2), (Float64.halves 5, 3)] ∧
      RangeOrder exampleNaNFirst [0, 1, 2] ∧ RangeOrder exampleNaNFirst [2, 0, 1] ∧
      Keys insertionSort exampleNaNFirst [0, 1, 2] = none ∧
      Keys insertionSort exampleNaNFirst [2, 0, 1] = none ∧
      ∀ sortSlice : SliceSorter Float64, SortSlicePanics sortSlice →
        ∀ visit, RangeOrder exampleNaNFirst visit →
          Keys sortSlice exampleNaNFirst visit = none := by
  refine ⟨⟨[Op.set 1 Float64.NaN 1 [], Op.set 2 (Float64.halves 3) 2 [],
    Op.set 3 (Float64.halves 5) 3 []], rfl⟩, by decide, ?_, ?_, by decide, by decide, ?_⟩
  · unfold RangeOrder; decide
  · unfold RangeOrder; decide
  · intro sortSlice hp visit hr
    have hx : Float64.NaN ∈ storedKeys exampleNaNFirst := by decide
    exact Keys_panics hp _ hx rfl (by decide) hr

/-- C8, at an input the code can receive: the keys 1.5 and NaN, pairwise distinct, `Set` in
that order into a new `Cache[float64, int]` at the clock readings 1 and 2. `Keys()` panics,
whatever the order of the iteration, where the specification has it return `[1.5, NaN]`. -/
theorem insertion_order_keys_panics :
    ([(⟨1, Float64.halves 3, 1, []⟩ : SetCall Float64 Int), ⟨2, Float64.NaN, 2, []⟩].map
        (fun s => s.k)).Nodup ∧
      ([(⟨1, Float64.halves 3, 1, []⟩ : SetCall Float64 Int), ⟨2, Float64.NaN, 2, []⟩].map
        (fun s => s.now)).Pairwise (fun t u => t < u) ∧
      RangeOrder (setAll (NewCache : Cache Float64 Int)
        [⟨1, Float64.halves 3, 1, []⟩, ⟨2, Float64.NaN, 2, []⟩]) [0, 1] ∧
      Keys insertionSort (setAll (NewCache : Cache Float64 Int)
        [⟨1, Float64.halves 3, 1, []⟩, ⟨2, Float64.NaN, 2, []⟩]) [0, 1] = none ∧
      ∀ sortSlice : SliceSorter Float64, SortSlicePanics sortSlice →
        ∀ visit, RangeOrder (setAll (NewCache : Cache Float64 Int)
          [⟨1, Float64.halves 3, 1, []⟩, ⟨2, Float64.NaN, 2, []⟩]) visit →
        Keys sortSlice (setAll (NewCache : Cache Float64 Int)
          [⟨1, Float64.halves 3, 1, []⟩, ⟨2, Float64.NaN, 2, []⟩]) visit = none ∧
        Keys sortSlice (setAll (NewCache : Cache Float64 Int)
          [⟨1, Float64.halves 3, 1, []⟩, ⟨2, Float64.NaN, 2, []⟩]) visit
          ≠ some [Float64.halves 3, Float64.NaN] := by
  refine ⟨by decide, by decide, ?_, by decide, ?_⟩
  · unfold RangeOrder; decide
  · intro sortSlice hp visit hr
    have hx : Float64.NaN ∈ storedKeys (setAll (NewCache : Cache Float64 Int)
        [⟨1, Float64.halves 3, 1, []⟩, ⟨2, Float64.NaN, 2, []⟩]) := by decide
    have h := Keys_panics hp _ hx rfl (by decide) hr
    exact ⟨h, by rw [h]; exact fun e => by cases e⟩

/-- C9, at a state the code reaches: the new `Cache[float64, int]` after `Set(1.5, 1)` at
clock reading 1, whose stored creation timestamps are pairwise distinct and where `Keys()`
returns `[1.5]`. After `Set(NaN, 7)` at the later clock reading 2, `Keys()` panics, whatever
the order of the iteration, where the specification has it return `[1.5, NaN]`. -/
theorem reinsert_keys_panics :
    Reachable exampleOneKey ∧ DistinctCreatedAt exampleOneKey ∧
      (∀ e ∈ exampleOneKey.items, e.2.CreatedAt < 2) ∧
      Keys insertionSort exampleOneKey [0] = some [Float64.halves 3] ∧
      RangeOrder (Set exampleOneKey 2 Float64.NaN 7 []) [0, 1] ∧
      Keys insertionSort (Set exampleOneKey 2 Float64.NaN 7 []) [0, 1] = none ∧
      ∀ sortSlice : SliceSorter Float64, SortSlicePanics sortSlice →
        ∀ visit, RangeOrder (Set exampleOneKey 2 Float64.NaN 7 []) visit →
          Keys sortSlice (Set exampleOneKey 2 Float64.NaN 7 []) visit = none := by
  refine ⟨⟨[Op.set 1 (Float64.halves 3) 1 []], rfl⟩, ?_, by decide, by decide, ?_,
    by decide, ?_⟩
  · unfold DistinctCreatedAt; decide
  · unfold RangeOrder; decide
  · intro sortSlice hp visit hr
    have hx : Float64.NaN ∈ storedKeys (Set exampleOneKey 2 Float64.NaN 7 []) := by decide
    exact Keys_panics hp _ hx rfl (by decide) hr

/-- C10: `Contains` agrees with `Get`: in every state, for every key and clock reading,
`Contains(k)` is the bool returned by `Get(k)`, and it is true exactly when `k` is present
and has not expired. -/
theorem contains_agrees_with_get [Inhabited V] (c : Cache K V) (now : Time) (k : K) :
    Contains c now k = (Get c now k).2 ∧
      (Contains c now k = true ↔
        ∃ item, mapIndex c.items k = some item ∧ item.HasExpired now = false) := by
  cases h : mapIndex c.items k with
  | none => simp [Contains, Get, h]
  | some item => cases he : item.HasExpired now <;> simp [Contains, Get, h, he]

/-- C11: `Delete` of an absent key is a no-op. For every state of the cache (in particular
every reachable one) and every key `k` without entry, the map after `Delete(k)` is the map
before: same keys, same items. `Delete` is a total function, so the call cannot fail. -/
theorem delete_absent_is_noop (c : Cache K V) (k : K) (hk : mapIndex c.items k = none) :
    Delete c k = c ∧ (Delete c k).items = c.items ∧
      ∀ k', mapIndex (Delete c k).items k' = mapIndex c.items k' := by
  have heq : Delete c k = c := Delete_of_lookup_none c k hk
  exact ⟨heq, by rw [heq], fun k' => by rw [heq]⟩

theorem delete_absent_is_noop_witness :
    mapIndex exampleExpiring.items "q" = none ∧
      Delete exampleExpiring "q" = exampleExpiring ∧
      (Delete exampleExpiring "q").items = exampleExpiring.items ∧
      ∀ k', mapIndex (Delete exampleExpiring "q").items k' = mapIndex exampleExpiring.items k' :=
  ⟨by decide, delete_absent_is_noop exampleExpiring "q" (by decide)⟩

/-- C12: `Delete` is idempotent. For every state of the cache (in particular every reachable
one) and every key `k`, the state after `Delete(k); Delete(k)` is the state after one
`Delete(k)`; hence, after any further calls, `Get`, `Contains` and `Keys` return the same
result in both. -/
theorem delete_idempotent [Inhabited V] (c : Cache K V) (k : K) :
    Delete (Delete c k) k = Delete c k ∧
      ∀ (ops : List (Op K V)),
        (∀ now k', Get (runOps (Delete (Delete c k) k) ops) now k'
            = Get (runOps (Delete c k) ops) now k') ∧
        (∀ now k', Contains (runOps (Delete (Delete c k) k) ops) now k'
            = Contains (runOps (Delete c k) ops) now k') ∧
        (∀ (sortSlice : SliceSorter K) (visit : List Nat),
          Keys sortSlice (runOps (Delete (Delete c k) k) ops) visit
            = Keys sortSlice (runOps (Delete c k) ops) visit) := by
  have heq : Delete (Delete c k) k = Delete c k :=
    Delete_of_lookup_none (Delete c k) k (lookup_Delete_self c k)
  refine ⟨heq, fun ops => ?_⟩
  rw [heq]
  exact ⟨fun _ _ => rfl, fun _ _ => rfl, fun _ _ => rfl⟩

/-- C13: a key never inserted is never found. `NewCache()` has no entries and its `Keys()`
is empty; and after every finite sequence of calls on a new cache none of which is a `Set`
on `k`, `Get(k)` returns the zero value and false and `Contains(k)` returns false, at every
clock reading. -/
theorem never_inserted_never_found [Inhabited V] {sortSlice : SliceSorter K}
    (hs : SortSliceContract sortSlice) (k : K) :
    (NewCache : Cache K V).items = [] ∧
      (∀ visit, RangeOrder (NewCache : Cache K V) visit →
        Keys sortSlice (NewCache : Cache K V) visit = some []) ∧
      ∀ (ops : List (Op K V)), (∀ op ∈ ops, ¬ op.SetsKey k) → ∀ now : Time,
        Get (runOps NewCache ops) now k = (default, false) ∧
          Contains (runOps NewCache ops) now k = false := by
  refine ⟨rfl, ?_, ?_⟩
  · intro visit hr
    obtain ⟨ys, h1, h2, _⟩ := Keys_spec hs (NewCache : Cache K V) (fun e he => by cases he) hr
    rw [h1]
    have : ys = [] := List.Perm.eq_nil (by simpa [NewCache, storedKeys] using h2)
    rw [this]
  · intro ops hops now
    have h := lookup_runOps_of_no_set k ops (NewCache : Cache K V) rfl hops
    simp [Get, Contains, h]

theorem never_inserted_never_found_witness :
    SortSliceContract (insertionSort : SliceSorter String) ∧
      (NewCache : Cache String Int).items = [] ∧
      RangeOrder (NewCache : Cache String Int) [] ∧
      Keys insertionSort (NewCache : Cache String Int) [] = some [] ∧
      (∀ op ∈ [Op.set 1 "a" 1 [], Op.delete "k", Op.get 2 "k", Op.set 3 "b" 2 []],
        ¬ Op.SetsKey (V := Int) "k" op) ∧
      Get (runOps (NewCache : Cache String Int)
        [Op.set 1 "a" 1 [], Op.delete "k", Op.get 2 "k", Op.set 3 "b" 2 []]) 4 "k"
        = (default, false) ∧
      Contains (runOps (NewCache : Cache String Int)
        [Op.set 1 "a" 1 [], Op.delete "k", Op.get 2 "k", Op.set 3 "b" 2 []]) 4 "k" = false :=
  have h := never_inserted_never_found (V := Int) insertionSort_contract "k"
  have hr : RangeOrder (NewCache : Cache String Int) [] := by unfold RangeOrder; decide
  have hops : ∀ op ∈ [Op.set 1 "a" 1 [], Op.delete "k", Op.get 2 "k", Op.set 3 "b" 2 []],
      ¬ Op.SetsKey (V := Int) "k" op := by
    simp [Op.SetsKey]
  ⟨insertionSort_contract, h.1, hr, h.2.1 [] hr, hops, h.2.2 _ hops 4⟩

/-- C14: the read operations do not mutate the cache. For every state, key and clock
reading, the state after `Get(k)`, after `Contains(k)` and after `Keys()` is the state
before the call, and so is the state after any sequence of reads. In particular a `Get` or
a `Contains` on an expired key does not remove its entry: the item is still stored, while
both calls report it as not found. -/
theorem reads_do_not_mutate [Inhabited V] (c : Cache K V) (now : Time) (k : K) :
    (Op.get now k).apply c = c ∧ (Op.contains now k).apply c = c ∧
      (Op.keys : Op K V).apply c = c ∧
      (∀ ops : List (Op K V), (∀ op ∈ ops, op.IsRead) → runOps c ops = c) ∧
      (∀ item, mapIndex c.items k = some item → item.HasExpired now = true →
        Get c now k = (default, false) ∧ Contains c now k = false ∧
          mapIndex (runOps c [Op.get now k, Op.contains now k]).items k = some item) := by
  have hreads : ∀ ops : List (Op K V), (∀ op ∈ ops, op.IsRead) → runOps c ops = c := by
    intro ops
    induction ops with
    | nil => intro _; rfl
    | cons op ops ih =>
      intro h
      have hop : op.apply c = c := by
        have := h op (List.mem_cons_self _ _)
        cases op <;> first | rfl | exact absurd this (by simp [Op.IsRead])
      have := ih (fun o ho => h o (List.mem_cons_of_mem _ ho))
      simpa [runOps, hop] using this
  refine ⟨rfl, rfl, rfl, hreads, ?_⟩
  intro item hk he
  refine ⟨by simp [Get, hk, he], by simp [Contains, hk, he], ?_⟩
  rw [hreads _ (by simp [Op.IsRead])]
  exact hk

/-- C15: the key-consistency invariant. In every state reachable from `NewCache`, every key
present in the map maps to an item whose `Key` field is that key (`NewItem(k, v, opts...)`
returns an item with `Key = k`). -/
theorem key_consistency (c : Cache K V) (hc : Reachable c) :
    ∀ k item, mapIndex c.items k = some item → item.Key = k := by
  obtain ⟨ops, rfl⟩ := hc
  refine key_field_runOps ops NewCache ?_
  intro k item h
  simp [NewCache, mapIndex] at h

theorem key_consistency_witness :
    Reachable exampleExpiring ∧
      ∀ k item, mapIndex exampleExpiring.items k = some item → item.Key = k :=
  ⟨exampleExpiring_reachable, key_consistency exampleExpiring exampleExpiring_reachable⟩

/-- C16, at a state the code reaches: on a new `Cache[float64, int]`, `Set(1.5, 1)` then
`Set(NaN, 2)`. The `range` loop of `Keys` yields the key NaN, the indexing `c.items[NaN]` of
the comparator finds no entry and yields the nil pointer, the comparator panics on reading
`CreatedAt` through it, and `Keys()` panics, whatever the order of the iteration, where the
specification has every operation complete. `Get` and `Contains` do return in that state. -/
theorem keys_panics_on_reachable_state :
    Reachable exampleNaN ∧
      RangeOrder exampleNaN [0, 1] ∧
      rangeKeys exampleNaN [0, 1] = [Float64.halves 3, Float64.NaN] ∧
      mapIndex exampleNaN.items Float64.NaN = none ∧
      keysLess exampleNaN (Float64.halves 3) Float64.NaN = none ∧
      keysLess exampleNaN Float64.NaN (Float64.halves 3) = none ∧
      Keys insertionSort exampleNaN [0, 1] = none ∧
      (∀ sortSlice : SliceSorter Float64, SortSlicePanics sortSlice →
        ∀ visit, RangeOrder exampleNaN visit → Keys sortSlice exampleNaN visit = none) ∧
      Get exampleNaN 3 Float64.NaN = (0, false) ∧ Contains exampleNaN 3 Float64.NaN = false := by
  refine ⟨exampleNaN_reachable, ?_, by decide, by decide, by decide, by decide, by decide, ?_,
    by decide, by decide⟩
  · unfold RangeOrder; decide
  · intro sortSlice hp visit hr
    have hx : Float64.NaN ∈ storedKeys exampleNaN := by decide
    exact Keys_panics hp _ hx rfl (by decide) hr

/-- C18: writes to one key do not affect other keys. For every state (in particular every
reachable one), keys `k` and `k'` with `k'` different from `k`, and every clock reading:
after `Set(k, v, opts...)` and after `Delete(k)`, the item stored under `k'` (value,
creation time, expiration) is unchanged, and `Get(k')` and `Contains(k')` return what they
returned before. -/
theorem writes_leave_other_keys [Inhabited V] (c : Cache K V) (k k' : K) (hne : k' ≠ k)
    (t : Time) (v : V) (opts : List ItemOption) (now : Time) :
    mapIndex (Set c t k v opts).items k' = mapIndex c.items k' ∧
      Get (Set c t k v opts) now k' = Get c now k' ∧
      Contains (Set c t k v opts) now k' = Contains c now k' ∧
      mapIndex (Delete c k).items k' = mapIndex c.items k' ∧
      Get (Delete c k) now k' = Get c now k' ∧
      Contains (Delete c k) now k' = Contains c now k' := by
  have hs := lookup_Set_ne c t v opts (keyEq_false_of_ne hne)
  have hd := lookup_Delete_ne c (keyEq_false_of_ne hne)
  exact ⟨hs, by simp [Get, hs], by simp [Contains, hs], hd, by simp [Get, hd],
    by simp [Contains, hd]⟩

theorem writes_leave_other_keys_witness :
    ("x" : String) ≠ "a" ∧
      mapIndex (Set exampleExpiring 5 "a" 0 [ItemOption.expiresAt 6]).items "x"
        = mapIndex exampleExpiring.items "x" ∧
      Get (Set exampleExpiring 5 "a" 0 [ItemOption.expiresAt 6]) 6 "x"
        = Get exampleExpiring 6 "x" ∧
      Contains (Set exampleExpiring 5 "a" 0 [ItemOption.expiresAt 6]) 6 "x"
        = Contains exampleExpiring 6 "x" ∧
      mapIndex (Delete exampleExpiring "a").items "x" = mapIndex exampleExpiring.items "x" ∧
      Get (Delete exampleExpiring "a") 6 "x" = Get exampleExpiring 6 "x" ∧
      Contains (Delete exampleExpiring "a") 6 "x" = Contains exampleExpiring 6 "x" :=
  ⟨by decide,
    writes_leave_other_keys exampleExpiring "a" "x" (by decide) 5 0 [ItemOption.expiresAt 6] 6⟩

/-- C19: `Keys` is deterministic when there are no timestamp ties. For every state that is a
Go map, as every reachable state is, and in which the stored creation timestamps are
pairwise distinct, the outcome of `Keys()` is determined by the mapping alone: whatever
order the map iteration yields the keys in, whichever sorting procedure that behaves as
`sort.Slice` (which need not be stable) is used, and whichever of two states holding the
same mapping is enumerated, the two calls have the same outcome, the same sequence or a
panic in both. When every stored key is `==` to itself the outcome is a sequence. -/
theorem keys_deterministic_without_ties {sortSlice₁ sortSlice₂ : SliceSorter K}
    (hs₁ : SortSliceContract sortSlice₁) (hp₁ : SortSlicePanics sortSlice₁)
    (hs₂ : SortSliceContract sortSlice₂) (hp₂ : SortSlicePanics sortSlice₂)
    (c₁ c₂ : Cache K V) (hsame : SameMapping c₁ c₂) (hwf : WellFormed c₁)
    (hd : DistinctCreatedAt c₁) (visit₁ visit₂ : List Nat)
    (hr₁ : RangeOrder c₁ visit₁) (hr₂ : RangeOrder c₂ visit₂) :
    Keys sortSlice₁ c₁ visit₁ = Keys sortSlice₂ c₂ visit₂ ∧
      (KeysEqualThemselves c₁ →
        ∃ ys, Keys sortSlice₁ c₁ visit₁ = some ys ∧ Keys sortSlice₂ c₂ visit₂ = some ys) := by
  have hkeys : (storedKeys c₁).Perm (storedKeys c₂) := List.Perm.map _ hsame
  have hwf₂ : WellFormed c₂ :=
    (List.Perm.pairwise_iff (fun {x y} hxy => by rw [keyEq_comm]; exact hxy) hsame).mp hwf
  have hca : createdAtOf c₂ = createdAtOf c₁ := by
    funext k
    simp [createdAtOf, mapIndex_perm hsame hwf k]
  have healthy : KeysEqualThemselves c₁ →
      ∃ ys, Keys sortSlice₁ c₁ visit₁ = some ys ∧ Keys sortSlice₂ c₂ visit₂ = some ys := by
    intro hh
    have hh₂ : KeysEqualThemselves c₂ := fun e he => hh e (hsame.symm.subset he)
    obtain ⟨ys, h1, h2, h3⟩ := Keys_spec hs₁ c₁ hh hr₁
    refine ⟨ys, h1, Keys_eq_of_sorted hs₂ c₂ hwf₂ hh₂ hr₂ ?_ (h2.trans hkeys) ?_⟩
    · intro a ha b hb hab
      rw [hca] at hab
      exact createdAtOf_injective hwf hh hd a (hkeys.symm.subset ha) b (hkeys.symm.subset hb) hab
    · rw [hca]
      exact h3
  refine ⟨?_, healthy⟩
  by_cases hh : KeysEqualThemselves c₁
  · obtain ⟨ys, h1, h2⟩ := healthy hh
    rw [h1, h2]
  · have hex : ∃ e ∈ c₁.items, Comparable.eqSelf e.1 = false := by
      by_contra hno
      refine hh (fun e he => ?_)
      cases hself : Comparable.eqSelf e.1 with
      | true => rfl
      | false => exact absurd ⟨e, he, hself⟩ hno
    obtain ⟨e, he, hself⟩ := hex
    have hx₁ : e.1 ∈ storedKeys c₁ := List.mem_map.mpr ⟨e, he, rfl⟩
    have hx₂ : e.1 ∈ storedKeys c₂ := hkeys.subset hx₁
    have hlen : c₂.items.length = c₁.items.length := hsame.length_eq.symm
    by_cases h2 : 2 ≤ c₁.items.length
    · rw [Keys_panics hp₁ c₁ hx₁ hself h2 hr₁,
        Keys_panics hp₂ c₂ hx₂ hself (by rw [hlen]; exact h2) hr₂]
    · have hk₁ : storedKeys c₁ = [e.1] := by
        have hpos : 0 < c₁.items.length := List.length_pos_of_mem he
        have h1 : c₁.items.length = 1 := by omega
        match hc : c₁.items, h1, he with
        | [e'], _, he' =>
          have : e = e' := by simpa [hc] using he'
          simp [storedKeys, hc, this]
      have hk₂ : storedKeys c₂ = [e.1] := List.perm_singleton.mp (hk₁ ▸ hkeys.symm)
      have hret₁ : rangeKeys c₁ visit₁ = [e.1] :=
        List.perm_singleton.mp (hk₁ ▸ rangeKeys_perm c₁ hr₁)
      have hret₂ : rangeKeys c₂ visit₂ = [e.1] :=
        List.perm_singleton.mp (hk₂ ▸ rangeKeys_perm c₂ hr₂)
      unfold Keys
      rw [hret₁, hret₂, hp₁.1 _ [e.1] (by simp), hp₂.1 _ [e.1] (by simp)]

theorem keys_deterministic_without_ties_witness :
    SortSliceContract (insertionSort : SliceSorter String) ∧
      SortSlicePanics (insertionSort : SliceSorter String) ∧
      SortSliceContract (insertionSortReversed : SliceSorter String) ∧
      SortSlicePanics (insertionSortReversed : SliceSorter String) ∧
      SameMapping exampleExpiring exampleExpiringReordered ∧
      WellFormed exampleExpiring ∧ DistinctCreatedAt exampleExpiring ∧
      RangeOrder exampleExpiring [2, 0, 1] ∧
      RangeOrder exampleExpiringReordered [1, 2, 0] ∧
      Keys insertionSort exampleExpiring [2, 0, 1]
        = Keys insertionSortReversed exampleExpiringReordered [1, 2, 0] ∧
      (KeysEqualThemselves exampleExpiring →
        ∃ ys, Keys insertionSort exampleExpiring [2, 0, 1] = some ys ∧
          Keys insertionSortReversed exampleExpiringReordered [1, 2, 0] = some ys) ∧
      Keys insertionSort exampleNaN [0, 1] = Keys insertionSortReversed exampleNaN [1, 0] :=
  have hsame : SameMapping exampleExpiring exampleExpiringReordered := by
    unfold SameMapping; decide
  have hr₁ : RangeOrder exampleExpiring [2, 0, 1] := by unfold RangeOrder; decide
  have hr₂ : RangeOrder exampleExpiringReordered [1, 2, 0] := by unfold RangeOrder; decide
  ⟨insertionSort_contract, insertionSort_panics, insertionSortReversed_contract,
    insertionSortReversed_panics, hsame, exampleExpiring_wellFormed, exampleExpiring_distinct,
    hr₁, hr₂,
    (keys_deterministic_without_ties insertionSort_contract insertionSort_panics
      insertionSortReversed_contract insertionSortReversed_panics
      exampleExpiring exampleExpiringReordered hsame exampleExpiring_wellFormed
      exampleExpiring_distinct [2, 0, 1] [1, 2, 0] hr₁ hr₂).1,
    (keys_deterministic_without_ties insertionSort_contract insertionSort_panics
      insertionSortReversed_contract insertionSortReversed_panics
      exampleExpiring exampleExpiringReordered hsame exampleExpiring_wellFormed
      exampleExpiring_distinct [2, 0, 1] [1, 2, 0] hr₁ hr₂).2,
    (keys_deterministic_without_ties insertionSort_contract insertionSort_panics
      insertionSortReversed_contract insertionSortReversed_panics
      exampleNaN exampleNaN (List.Perm.refl _) (WellFormed_of_Reachable exampleNaN_reachable)
      (by unfold DistinctCreatedAt; decide) [0, 1] [1, 0] (by unfold RangeOrder; decide)
      (by unfold RangeOrder; decide)).1⟩

/-- C20, at a state the code reaches: on a new `Cache[float64, int]`, `Set(NaN, 1)`,
`Set(1.5, 2)` and `Set(2.5, 3)` at the clock readings 1, 2 and 3, so that the stored creation
timestamps are pairwise distinct. `Keys()` panics before `Delete(1.5)` and after it,
whatever the order of the iteration, where the specification has it return the sequence before
the call and that sequence without 1.5 after it. -/
theorem delete_keys_panics :
    Reachable exampleNaNFirst ∧ DistinctCreatedAt exampleNaNFirst ∧
      storedKeys (Delete exampleNaNFirst (Float64.halves 3)) = [Float64.NaN, Float64.halves 5] ∧
      RangeOrder exampleNaNFirst [0, 1, 2] ∧
      RangeOrder (Delete exampleNaNFirst (Float64.halves 3)) [0, 1] ∧
      Keys insertionSort exampleNaNFirst [0, 1, 2] = none ∧
      Keys insertionSort (Delete exampleNaNFirst (Float64.halves 3)) [0, 1] = none ∧
      ∀ sortSlice : SliceSorter Float64, SortSlicePanics sortSlice →
        (∀ visit, RangeOrder exampleNaNFirst visit →
          Keys sortSlice exampleNaNFirst visit = none) ∧
        ∀ visit, RangeOrder (Delete exampleNaNFirst (Float64.halves 3)) visit →
          Keys sortSlice (Delete exampleNaNFirst (Float64.halves 3)) visit = none := by
  refine ⟨⟨[Op.set 1 Float64.NaN 1 [], Op.set 2 (Float64.halves 3) 2 [],
    Op.set 3 (Float64.halves 5) 3 []], rfl⟩, ?_, by decide, ?_, ?_, by decide, by decide,
    ?_⟩
  · unfold DistinctCreatedAt; decide
  · unfold RangeOrder; decide
  · unfold RangeOrder; decide
  · intro sortSlice hp
    refine ⟨fun visit hr => ?_, fun visit hr => ?_⟩
    · exact Keys_panics hp _ (by decide : Float64.NaN ∈ storedKeys exampleNaNFirst) rfl
        (by decide) hr
    · exact Keys_panics hp _
        (by decide : Float64.NaN ∈ storedKeys (Delete exampleNaNFirst (Float64.halves 3))) rfl
        (by decide) hr

end Lemmas

end Simple
